import Mathlib

/-!
# Verification of the godata in-memory tabular data engine

A shallow embedding, in Lean 4, of the core of the godata repository:
the `row` package's key comparison (`src/row/index.go`), the column
indexer (`src/indexer.go`), and the tree-backed `Frame` store with its
`Put`/`Get`/`Pop`/`GetRange`/`PopRange`/`Joined`/`GroupBy` operations
(`src/unnamed/part_001`, `src/join.go`, `src/group/group.go`).

Modelling conventions:
* Go `interface{}` column values are a closed inductive `GoValue`
  (the repository only ever stores ints, strings, `*JoinResult`,
  `group.Group`, and `nil`).
* `log.Fatal` (process termination) is modelled as the `none` case of an
  `Option`-valued result: a `none` outcome means the Go process dies.
  It is deliberately distinct from Go `error` returns, which are
  modelled with `Except GoErr`.
* The `btree.BTree` backing store is modelled as a list of rows together
  with the scan semantics of the btree's `find`: an item is *found* when
  neither it nor the probe compares less than the other, and insertion
  happens in front of the first strictly greater element.  Observable
  results (replace/insert/get/delete and ascending iteration) agree with
  the btree on every input the claims range over.
* Go maps (`row.Data`) are association lists looked up by first match;
  map iteration order is fixed to list order, which is unobservable in
  any of the verified results.
-/

namespace GoData

/-- Column values stored in a row (`interface{}` in Go, restricted to the
types the repository actually stores). `joinResult` carries the
`Left`/`Right` slots of `join.go`'s `JoinResult`; `group` carries a
`group.Group`, i.e. a list of row-data maps. `nilv` is the nil
interface value. -/
inductive GoValue where
  | nilv : GoValue
  | int (n : Int) : GoValue
  | str (s : String) : GoValue
  | joinResult (left right : Option GoValue) : GoValue
  | group (g : List (List (String × GoValue))) : GoValue

/-- `row.Data`: a Go map from column name to value, modelled as an
association list with first-match lookup. -/
abbrev Data := List (String × GoValue)

/-- Go map read `val, ok := data[col]` (first matching entry). -/
def dataGet (d : Data) (c : String) : Option GoValue :=
  match d with
  | [] => none
  | (c', v) :: rest => if c' = c then some v else dataGet rest c

/-- `reflect.Type` as observed by `reflect.TypeOf` on the values above;
`none` is the nil `reflect.Type` of a nil interface value. -/
inductive GoType where
  | int | str | joinResultPtr | groupSlice
  deriving DecidableEq

/-- `reflect.TypeOf(val)` on the closed value universe. -/
def typeOf : GoValue → Option GoType
  | .nilv => none
  | .int _ => some .int
  | .str _ => some .str
  | .joinResult _ _ => some .joinResultPtr
  | .group _ => some .groupSlice

/-- `row.Index`: the key of a tree entry. `null` is `NullIndex`,
`int`/`str` are `IntIndex`/`StringIndex`, `multi` is `MultiIndex`. -/
inductive GoIndex where
  | null : GoIndex
  | int (n : Int) : GoIndex
  | str (s : String) : GoIndex
  | multi (l : List GoIndex) : GoIndex

mutual

/-- Boolean structural equality on `GoIndex` (nested, so written by
hand). -/
def ibeq : GoIndex → GoIndex → Bool
  | .null, .null => true
  | .int m, .int n => m == n
  | .str a, .str b => a == b
  | .multi la, .multi lb => ibeqList la lb
  | _, _ => false

/-- Boolean structural equality on lists of `GoIndex`. -/
def ibeqList : List GoIndex → List GoIndex → Bool
  | [], [] => true
  | a :: la, b :: lb => ibeq a b && ibeqList la lb
  | _, _ => false

end

mutual

theorem ibeq_iff : ∀ a b : GoIndex, ibeq a b = true ↔ a = b
  | .null, .null => by simp [ibeq]
  | .null, .int _ | .null, .str _ | .null, .multi _ => by simp [ibeq]
  | .int _, .null | .int _, .str _ | .int _, .multi _ => by simp [ibeq]
  | .str _, .null | .str _, .int _ | .str _, .multi _ => by simp [ibeq]
  | .multi _, .null | .multi _, .int _ | .multi _, .str _ => by simp [ibeq]
  | .int m, .int n => by simp [ibeq]
  | .str a, .str b => by simp [ibeq]
  | .multi la, .multi lb => by
      simp only [ibeq, GoIndex.multi.injEq]
      exact ibeqList_iff la lb

theorem ibeqList_iff : ∀ la lb : List GoIndex, ibeqList la lb = true ↔ la = lb
  | [], [] => by simp [ibeqList]
  | [], _ :: _ | _ :: _, [] => by simp [ibeqList]
  | a :: la, b :: lb => by
      simp only [ibeqList, Bool.and_eq_true, List.cons.injEq]
      exact and_congr (ibeq_iff a b) (ibeqList_iff la lb)

end

instance : DecidableEq GoIndex := fun a b =>
  decidable_of_iff _ (ibeq_iff a b)

mutual

/-- The `Less` method dispatch of `src/row/index.go` on two `Index`
values. `some b` is the Go boolean result; `none` models the
`log.Fatal` taken when the dynamic types are incompatible (which kills
the Go process). `NullIndex.Less` returns `true` for every argument. -/
def lessGo : GoIndex → GoIndex → Option Bool
  | .null, _ => some true
  | .int m, i =>
    match i with
    | .int n => some (decide (m < n))
    | _ => none
  | .str a, i =>
    match i with
    | .str b => some (decide (a < b))
    | _ => none
  | .multi la, i =>
    match i with
    | .multi lb => multiLess la lb
    | _ => none
termination_by a b => sizeOf a + sizeOf b
decreasing_by all_goals (simp_wf; omega)

/-- The loop body of `MultiIndex.Less`: walk the receiver's indices; a
position past the argument's length means the receiver is greater; the
first strictly ordered pair decides; after exhausting the receiver the
shorter composite is less. -/
def multiLess : List GoIndex → List GoIndex → Option Bool
  | [], lb => some (decide (0 < lb.length))
  | _ :: _, [] => some false
  | a :: la, b :: lb =>
    match lessGo a b with
    | none => none
    | some true => some true
    | some false =>
      match lessGo b a with
      | none => none
      | some true => some false
      | some false => multiLess la lb
termination_by la lb => sizeOf la + sizeOf lb
decreasing_by all_goals (simp_wf; omega)

end

/-- First decisive ordered pair among paired composite elements, per the
spec's wording for Composite comparison: `some (some b)` when a pair
decides the order, `some none` when all shared positions are
equivalent, `none` when an element comparison is fatal. -/
def firstDecisive : List (GoIndex × GoIndex) → Option (Option Bool)
  | [] => some none
  | (a, b) :: rest =>
    match lessGo a b with
    | none => none
    | some true => some (some true)
    | some false =>
      match lessGo b a with
      | none => none
      | some true => some (some false)
      | some false => firstDecisive rest

/-- Composite comparison as worded by the spec: walk paired elements,
the first non-equal pair decides; if all shared positions are equal the
shorter composite is Less; equal-length all-equal composites are not
Less either way. -/
def specLexLess (la lb : List GoIndex) : Option Bool :=
  match firstDecisive (la.zip lb) with
  | none => none
  | some (some b) => some b
  | some none => some (decide (la.length < lb.length))

/-- The underlying "kind" of a key: scalar int, scalar string, or a
composite of kinds. `NullIndex` has no shape. Two keys of equal shape
always compare without hitting `log.Fatal`. -/
inductive Shape where
  | int : Shape
  | str : Shape
  | multi (l : List Shape) : Shape

mutual

/-- Shape of a key; `none` exactly when the key is or contains
`NullIndex`. -/
def shapeOf : GoIndex → Option Shape
  | .null => none
  | .int _ => some .int
  | .str _ => some .str
  | .multi l => (shapeList l).map .multi
termination_by a => sizeOf a
decreasing_by all_goals (simp_wf; try omega)

/-- Shapes of a list of keys (all must have one). -/
def shapeList : List GoIndex → Option (List Shape)
  | [] => some []
  | a :: l =>
    match shapeOf a, shapeList l with
    | some s, some ss => some (s :: ss)
    | _, _ => none
termination_by l => sizeOf l
decreasing_by all_goals (simp_wf; try omega)

end

theorem shapeOf_multi {l : List GoIndex} {s : Shape}
    (h : shapeOf (.multi l) = some s) :
    ∃ ss, shapeList l = some ss ∧ s = .multi ss := by
  rw [shapeOf] at h
  cases hl : shapeList l with
  | none => rw [hl] at h; simp at h
  | some ss => rw [hl] at h; simp at h; exact ⟨ss, rfl, h.symm⟩

theorem shapeList_cons {x : GoIndex} {l : List GoIndex} {ss : List Shape}
    (h : shapeList (x :: l) = some ss) :
    ∃ s ss', shapeOf x = some s ∧ shapeList l = some ss' ∧ ss = s :: ss' := by
  rw [shapeList] at h
  cases hx : shapeOf x with
  | none => rw [hx] at h; simp at h
  | some s =>
    cases hl : shapeList l with
    | none => rw [hx, hl] at h; simp at h
    | some ss' => rw [hx, hl] at h; simp at h; exact ⟨s, ss', rfl, rfl, h.symm⟩

/-- `NullIndex.Less` returns `true` for every argument (including
`NullIndex` itself). -/
theorem lessGo_null (i : GoIndex) : lessGo .null i = some true := by
  rw [lessGo]

theorem shapeOf_null_inv {s : Shape} (h : shapeOf .null = some s) : False := by
  rw [shapeOf] at h; cases h

theorem shapeOf_int_inv {m : Int} {s : Shape}
    (h : shapeOf (.int m) = some s) : s = .int := by
  rw [shapeOf] at h; injection h with h; exact h.symm

theorem shapeOf_str_inv {a : String} {s : Shape}
    (h : shapeOf (.str a) = some s) : s = .str := by
  rw [shapeOf] at h; injection h with h; exact h.symm

theorem shapeList_nil_inv {ss : List Shape}
    (h : shapeList [] = some ss) : ss = [] := by
  rw [shapeList] at h; injection h with h; exact h.symm

theorem lessGo_int_int (m n : Int) :
    lessGo (.int m) (.int n) = some (decide (m < n)) := by rw [lessGo]

theorem lessGo_str_str (a b : String) :
    lessGo (.str a) (.str b) = some (decide (a < b)) := by rw [lessGo]

theorem lessGo_multi_multi (la lb : List GoIndex) :
    lessGo (.multi la) (.multi lb) = multiLess la lb := by rw [lessGo]

theorem lessGo_int_null (m : Int) : lessGo (.int m) .null = none := by
  (rw [lessGo]; simp)

theorem lessGo_int_str (m : Int) (b : String) :
    lessGo (.int m) (.str b) = none := by (rw [lessGo]; simp)

theorem lessGo_int_multi (m : Int) (lb : List GoIndex) :
    lessGo (.int m) (.multi lb) = none := by (rw [lessGo]; simp)

theorem lessGo_str_null (a : String) : lessGo (.str a) .null = none := by
  (rw [lessGo]; simp)

theorem lessGo_str_int (a : String) (n : Int) :
    lessGo (.str a) (.int n) = none := by (rw [lessGo]; simp)

theorem lessGo_str_multi (a : String) (lb : List GoIndex) :
    lessGo (.str a) (.multi lb) = none := by (rw [lessGo]; simp)

theorem lessGo_multi_null (la : List GoIndex) :
    lessGo (.multi la) .null = none := by (rw [lessGo]; simp)

theorem lessGo_multi_int (la : List GoIndex) (n : Int) :
    lessGo (.multi la) (.int n) = none := by (rw [lessGo]; simp)

theorem lessGo_multi_str (la : List GoIndex) (b : String) :
    lessGo (.multi la) (.str b) = none := by (rw [lessGo]; simp)

theorem multiLess_nil (lb : List GoIndex) :
    multiLess [] lb = some (decide (0 < lb.length)) := by rw [multiLess]

theorem multiLess_cons_nil (a : GoIndex) (la : List GoIndex) :
    multiLess (a :: la) [] = some false := by rw [multiLess]

theorem multiLess_cons_cons (a b : GoIndex) (la lb : List GoIndex) :
    multiLess (a :: la) (b :: lb) =
      match lessGo a b with
      | none => none
      | some true => some true
      | some false =>
        match lessGo b a with
        | none => none
        | some true => some false
        | some false => multiLess la lb := by rw [multiLess]

mutual

/-- A null-free key never compares less than itself. -/
theorem lessGo_irrefl : ∀ (a : GoIndex) (s : Shape),
    shapeOf a = some s → lessGo a a = some false
  | .null, _, h => (shapeOf_null_inv h).elim
  | .int m, _, _ => by rw [lessGo_int_int]; simp
  | .str a, _, _ => by rw [lessGo_str_str]; simp
  | .multi l, s, h => by
      obtain ⟨ss, hss, -⟩ := shapeOf_multi h
      rw [lessGo_multi_multi]
      exact multiLess_irrefl l ss hss
termination_by a => sizeOf a
decreasing_by all_goals (simp_wf; try omega)

/-- A null-free composite never compares less than itself. -/
theorem multiLess_irrefl : ∀ (l : List GoIndex) (ss : List Shape),
    shapeList l = some ss → multiLess l l = some false
  | [], _, _ => by rw [multiLess_nil]; simp
  | x :: l, ss, h => by
      obtain ⟨s, ss', hx, hl, -⟩ := shapeList_cons h
      rw [multiLess_cons_cons, lessGo_irrefl x s hx]
      exact multiLess_irrefl l ss' hl
termination_by l => sizeOf l
decreasing_by all_goals (simp_wf; try omega)

end

mutual

/-- Two keys of the same shape always compare without `log.Fatal`. -/
theorem lessGo_total : ∀ (a b : GoIndex) (s : Shape),
    shapeOf a = some s → shapeOf b = some s → ∃ x, lessGo a b = some x
  | .null, _, _, ha, _ => (shapeOf_null_inv ha).elim
  | _, .null, _, _, hb => (shapeOf_null_inv hb).elim
  | .int m, .int n, _, _, _ => ⟨_, lessGo_int_int m n⟩
  | .str a, .str b, _, _, _ => ⟨_, lessGo_str_str a b⟩
  | .int _, .str _, s, ha, hb =>
      Shape.noConfusion ((shapeOf_int_inv ha).symm.trans (shapeOf_str_inv hb))
  | .str _, .int _, s, ha, hb =>
      Shape.noConfusion ((shapeOf_str_inv ha).symm.trans (shapeOf_int_inv hb))
  | .int _, .multi lb, s, ha, hb => by
      obtain ⟨ss, -, h⟩ := shapeOf_multi hb
      exact Shape.noConfusion ((shapeOf_int_inv ha).symm.trans h)
  | .multi la, .int _, s, ha, hb => by
      obtain ⟨ss, -, h⟩ := shapeOf_multi ha
      exact Shape.noConfusion ((shapeOf_int_inv hb).symm.trans h)
  | .str _, .multi lb, s, ha, hb => by
      obtain ⟨ss, -, h⟩ := shapeOf_multi hb
      exact Shape.noConfusion ((shapeOf_str_inv ha).symm.trans h)
  | .multi la, .str _, s, ha, hb => by
      obtain ⟨ss, -, h⟩ := shapeOf_multi ha
      exact Shape.noConfusion ((shapeOf_str_inv hb).symm.trans h)
  | .multi la, .multi lb, s, ha, hb => by
      obtain ⟨ss, hla, rfl⟩ := shapeOf_multi ha
      obtain ⟨ss2, hlb, heq⟩ := shapeOf_multi hb
      have hss : ss2 = ss := by injection heq with h; exact h.symm
      subst hss
      rw [lessGo_multi_multi]
      exact multiLess_total la lb ss2 hla hlb
termination_by a b => sizeOf a + sizeOf b
decreasing_by all_goals (simp_wf; try omega)

/-- Two composites of elementwise equal shapes always compare without
`log.Fatal`. -/
theorem multiLess_total : ∀ (la lb : List GoIndex) (ss : List Shape),
    shapeList la = some ss → shapeList lb = some ss →
    ∃ x, multiLess la lb = some x
  | [], lb, _, _, _ => ⟨_, multiLess_nil lb⟩
  | x :: la, [], ss, ha, hb => by
      obtain ⟨s, ss', -, -, rfl⟩ := shapeList_cons ha
      cases shapeList_nil_inv hb
  | x :: la, y :: lb, ss, ha, hb => by
      obtain ⟨s, ss', hx, hla, rfl⟩ := shapeList_cons ha
      obtain ⟨t, ts', hy, hlb, heq⟩ := shapeList_cons hb
      obtain ⟨h1, h2⟩ : s = t ∧ ss' = ts' := by simpa using heq
      subst h1; subst h2
      obtain ⟨u, hu⟩ := lessGo_total x y s hx hy
      obtain ⟨v, hv⟩ := lessGo_total y x s hy hx
      rw [multiLess_cons_cons, hu]
      cases u with
      | true => exact ⟨_, rfl⟩
      | false =>
        rw [hv]
        cases v with
        | true => exact ⟨_, rfl⟩
        | false => exact multiLess_total la lb ss' hla hlb
termination_by la lb => sizeOf la + sizeOf lb
decreasing_by all_goals (simp_wf; try omega)

end

mutual

/-- Asymmetry: a null-free key that is less than another key is not
greater than it. -/
theorem lessGo_asym : ∀ (a b : GoIndex) (s : Shape),
    shapeOf a = some s → lessGo a b = some true → lessGo b a = some false
  | .null, _, _, ha, _ => (shapeOf_null_inv ha).elim
  | .int m, .int n, _, _, h => by
      rw [lessGo_int_int] at h
      rw [lessGo_int_int]
      simp at h ⊢
      omega
  | .int _, .null, _, _, h => by rw [lessGo_int_null] at h; cases h
  | .int _, .str _, _, _, h => by rw [lessGo_int_str] at h; cases h
  | .int _, .multi _, _, _, h => by rw [lessGo_int_multi] at h; cases h
  | .str a, .str c, _, _, h => by
      rw [lessGo_str_str] at h
      rw [lessGo_str_str]
      simp at h ⊢
      exact le_of_lt h
  | .str _, .null, _, _, h => by rw [lessGo_str_null] at h; cases h
  | .str _, .int _, _, _, h => by rw [lessGo_str_int] at h; cases h
  | .str _, .multi _, _, _, h => by rw [lessGo_str_multi] at h; cases h
  | .multi la, .multi lb, s, ha, h => by
      obtain ⟨ss, hla, -⟩ := shapeOf_multi ha
      rw [lessGo_multi_multi] at h
      rw [lessGo_multi_multi]
      exact multiLess_asym la lb ss hla h
  | .multi _, .null, _, _, h => by rw [lessGo_multi_null] at h; cases h
  | .multi _, .int _, _, _, h => by rw [lessGo_multi_int] at h; cases h
  | .multi _, .str _, _, _, h => by rw [lessGo_multi_str] at h; cases h
termination_by a b => sizeOf a + sizeOf b
decreasing_by all_goals (simp_wf; try omega)

/-- Asymmetry for composites with a null-free receiver. -/
theorem multiLess_asym : ∀ (la lb : List GoIndex) (ss : List Shape),
    shapeList la = some ss → multiLess la lb = some true →
    multiLess lb la = some false
  | [], lb, _, _, h => by
      rw [multiLess_nil] at h
      simp at h
      cases lb with
      | nil => simp at h
      | cons y lb => rw [multiLess_cons_nil]
  | _ :: _, [], _, _, h => by rw [multiLess_cons_nil] at h; cases h
  | x :: la, y :: lb, ss, ha, h => by
      obtain ⟨s, ss', hx, hla, rfl⟩ := shapeList_cons ha
      rw [multiLess_cons_cons] at h
      rw [multiLess_cons_cons]
      cases hxy : lessGo x y with
      | none => rw [hxy] at h; cases h
      | some u =>
        rw [hxy] at h
        cases u with
        | true =>
          rw [lessGo_asym x y s hx hxy]
        | false =>
          cases hyx : lessGo y x with
          | none => rw [hyx] at h; cases h
          | some v =>
            rw [hyx] at h
            cases v with
            | true => cases h
            | false =>
              exact multiLess_asym la lb ss' hla h
termination_by la lb => sizeOf la + sizeOf lb
decreasing_by all_goals (simp_wf; try omega)

end

mutual

/-- Connexity: two keys of one shape that are mutually not-less are
equal. -/
theorem lessGo_conn : ∀ (a b : GoIndex) (s : Shape),
    shapeOf a = some s → shapeOf b = some s →
    lessGo a b = some false → lessGo b a = some false → a = b
  | .null, _, _, ha, _, _, _ => (shapeOf_null_inv ha).elim
  | _, .null, _, _, hb, _, _ => (shapeOf_null_inv hb).elim
  | .int m, .int n, _, _, _, h1, h2 => by
      rw [lessGo_int_int] at h1
      rw [lessGo_int_int] at h2
      have g1 : ¬ m < n := of_decide_eq_false (Option.some.inj h1)
      have g2 : ¬ n < m := of_decide_eq_false (Option.some.inj h2)
      exact congrArg GoIndex.int (by omega)
  | .str a, .str c, _, _, _, h1, h2 => by
      rw [lessGo_str_str] at h1
      rw [lessGo_str_str] at h2
      have g1 : ¬ a < c := of_decide_eq_false (Option.some.inj h1)
      have g2 : ¬ c < a := of_decide_eq_false (Option.some.inj h2)
      exact congrArg GoIndex.str (le_antisymm (le_of_not_lt g2) (le_of_not_lt g1))
  | .int _, .str _, s, ha, hb, _, _ =>
      Shape.noConfusion ((shapeOf_int_inv ha).symm.trans (shapeOf_str_inv hb))
  | .str _, .int _, s, ha, hb, _, _ =>
      Shape.noConfusion ((shapeOf_str_inv ha).symm.trans (shapeOf_int_inv hb))
  | .int _, .multi _, s, ha, hb, _, _ => by
      obtain ⟨ss, -, h⟩ := shapeOf_multi hb
      exact Shape.noConfusion ((shapeOf_int_inv ha).symm.trans h)
  | .multi _, .int _, s, ha, hb, _, _ => by
      obtain ⟨ss, -, h⟩ := shapeOf_multi ha
      exact Shape.noConfusion ((shapeOf_int_inv hb).symm.trans h)
  | .str _, .multi _, s, ha, hb, _, _ => by
      obtain ⟨ss, -, h⟩ := shapeOf_multi hb
      exact Shape.noConfusion ((shapeOf_str_inv ha).symm.trans h)
  | .multi _, .str _, s, ha, hb, _, _ => by
      obtain ⟨ss, -, h⟩ := shapeOf_multi ha
      exact Shape.noConfusion ((shapeOf_str_inv hb).symm.trans h)
  | .multi la, .multi lb, s, ha, hb, h1, h2 => by
      obtain ⟨ss, hla, rfl⟩ := shapeOf_multi ha
      obtain ⟨ss2, hlb, heq⟩ := shapeOf_multi hb
      have hss : ss2 = ss := by injection heq with h; exact h.symm
      subst hss
      rw [lessGo_multi_multi] at h1 h2
      exact congrArg GoIndex.multi (multiLess_conn la lb ss2 hla hlb h1 h2)
termination_by a b => sizeOf a + sizeOf b
decreasing_by all_goals (simp_wf; try omega)

/-- Connexity for same-shape composites. -/
theorem multiLess_conn : ∀ (la lb : List GoIndex) (ss : List Shape),
    shapeList la = some ss → shapeList lb = some ss →
    multiLess la lb = some false → multiLess lb la = some false → la = lb
  | [], [], _, _, _, _, _ => rfl
  | [], y :: lb, ss, ha, hb, h1, h2 => by
      cases shapeList_nil_inv ha
      obtain ⟨s, ss', -, -, h⟩ := shapeList_cons hb
      cases h
  | x :: la, [], ss, ha, hb, h1, h2 => by
      cases shapeList_nil_inv hb
      obtain ⟨s, ss', -, -, h⟩ := shapeList_cons ha
      cases h
  | x :: la, y :: lb, ss, ha, hb, h1, h2 => by
      obtain ⟨s, ss', hx, hla, rfl⟩ := shapeList_cons ha
      obtain ⟨t, ts', hy, hlb, heq⟩ := shapeList_cons hb
      obtain ⟨hst, hsts⟩ : s = t ∧ ss' = ts' := by simpa using heq
      subst hst; subst hsts
      rw [multiLess_cons_cons] at h1 h2
      cases hxy : lessGo x y with
      | none => rw [hxy] at h1; cases h1
      | some u =>
        rw [hxy] at h1
        cases u with
        | true => cases h1
        | false =>
          cases hyx : lessGo y x with
          | none => rw [hyx] at h1; cases h1
          | some v =>
            rw [hyx] at h1
            cases v with
            | true => rw [hyx] at h2; cases h2
            | false =>
              rw [hyx, hxy] at h2
              have hxeq := lessGo_conn x y s hx hy hxy hyx
              have hleq := multiLess_conn la lb ss' hla hlb h1 h2
              rw [hxeq, hleq]
termination_by la lb => sizeOf la + sizeOf lb
decreasing_by all_goals (simp_wf; try omega)

end

mutual

/-- Transitivity on same-shape keys. -/
theorem lessGo_trans : ∀ (a b c : GoIndex) (s : Shape),
    shapeOf a = some s → shapeOf b = some s → shapeOf c = some s →
    lessGo a b = some true → lessGo b c = some true → lessGo a c = some true
  | .null, _, _, _, ha, _, _, _, _ => (shapeOf_null_inv ha).elim
  | .int m, b, c, s, ha, hb, hc, h1, h2 => by
      cases shapeOf_int_inv ha
      cases b with
      | null => exact (shapeOf_null_inv hb).elim
      | str _ => cases shapeOf_str_inv hb
      | multi _ => obtain ⟨ss, -, h⟩ := shapeOf_multi hb; cases h
      | int n =>
        cases c with
        | null => exact (shapeOf_null_inv hc).elim
        | str _ => cases shapeOf_str_inv hc
        | multi _ => obtain ⟨ss, -, h⟩ := shapeOf_multi hc; cases h
        | int p =>
          rw [lessGo_int_int] at h1 h2 ⊢
          have g1 : m < n := of_decide_eq_true (Option.some.inj h1)
          have g2 : n < p := of_decide_eq_true (Option.some.inj h2)
          exact congrArg some (decide_eq_true (by omega))
  | .str a, b, c, s, ha, hb, hc, h1, h2 => by
      cases shapeOf_str_inv ha
      cases b with
      | null => exact (shapeOf_null_inv hb).elim
      | int _ => cases shapeOf_int_inv hb
      | multi _ => obtain ⟨ss, -, h⟩ := shapeOf_multi hb; cases h
      | str y =>
        cases c with
        | null => exact (shapeOf_null_inv hc).elim
        | int _ => cases shapeOf_int_inv hc
        | multi _ => obtain ⟨ss, -, h⟩ := shapeOf_multi hc; cases h
        | str z =>
          rw [lessGo_str_str] at h1 h2 ⊢
          have g1 : a < y := of_decide_eq_true (Option.some.inj h1)
          have g2 : y < z := of_decide_eq_true (Option.some.inj h2)
          exact congrArg some (decide_eq_true (lt_trans g1 g2))
  | .multi la, .null, _, _, _, hb, _, _, _ => (shapeOf_null_inv hb).elim
  | .multi la, .int _, _, s, ha, hb, _, _, _ => by
      obtain ⟨ss, -, h⟩ := shapeOf_multi ha
      exact Shape.noConfusion ((shapeOf_int_inv hb).symm.trans h)
  | .multi la, .str _, _, s, ha, hb, _, _, _ => by
      obtain ⟨ss, -, h⟩ := shapeOf_multi ha
      exact Shape.noConfusion ((shapeOf_str_inv hb).symm.trans h)
  | .multi la, .multi lb, .null, _, _, _, hc, _, _ => (shapeOf_null_inv hc).elim
  | .multi la, .multi lb, .int _, s, ha, _, hc, _, _ => by
      obtain ⟨ss, -, h⟩ := shapeOf_multi ha
      exact Shape.noConfusion ((shapeOf_int_inv hc).symm.trans h)
  | .multi la, .multi lb, .str _, s, ha, _, hc, _, _ => by
      obtain ⟨ss, -, h⟩ := shapeOf_multi ha
      exact Shape.noConfusion ((shapeOf_str_inv hc).symm.trans h)
  | .multi la, .multi lb, .multi lc, s, ha, hb, hc, h1, h2 => by
      obtain ⟨ss, hla, rfl⟩ := shapeOf_multi ha
      obtain ⟨ssb, hlb, heqb⟩ := shapeOf_multi hb
      obtain ⟨ssc, hlc, heqc⟩ := shapeOf_multi hc
      have e1 : ssb = ss := by injection heqb with h; exact h.symm
      have e2 : ssc = ss := by injection heqc with h; exact h.symm
      subst e1; subst e2
      rw [lessGo_multi_multi] at h1 h2 ⊢
      exact multiLess_trans la lb lc ssc hla hlb hlc h1 h2
termination_by a b c => sizeOf a + sizeOf b + sizeOf c
decreasing_by all_goals (simp_wf; try omega)

/-- Transitivity on same-shape composites. -/
theorem multiLess_trans : ∀ (la lb lc : List GoIndex) (ss : List Shape),
    shapeList la = some ss → shapeList lb = some ss →
    shapeList lc = some ss →
    multiLess la lb = some true → multiLess lb lc = some true →
    multiLess la lc = some true
  | [], lb, lc, ss, ha, hb, hc, h1, h2 => by
      cases shapeList_nil_inv ha
      cases lb with
      | nil => rw [multiLess_nil] at h1; simp at h1
      | cons y lb => obtain ⟨s, ss', -, -, h⟩ := shapeList_cons hb; cases h
  | x :: la, [], lc, ss, ha, hb, hc, h1, h2 => by
      obtain ⟨s, ss', -, -, rfl⟩ := shapeList_cons ha
      cases shapeList_nil_inv hb
  | x :: la, y :: lb, [], ss, ha, hb, hc, h1, h2 => by
      obtain ⟨s, ss', -, -, rfl⟩ := shapeList_cons ha
      cases shapeList_nil_inv hc
  | x :: la, y :: lb, z :: lc, ss, ha, hb, hc, h1, h2 => by
      obtain ⟨s, ss', hx, hla, rfl⟩ := shapeList_cons ha
      obtain ⟨t, ts', hy, hlb, heqb⟩ := shapeList_cons hb
      obtain ⟨hst, hsts⟩ : s = t ∧ ss' = ts' := by simpa using heqb
      subst hst; subst hsts
      obtain ⟨t2, ts2, hz, hlc, heqc⟩ := shapeList_cons hc
      obtain ⟨hst2, hsts2⟩ : s = t2 ∧ ss' = ts2 := by simpa using heqc
      subst hst2; subst hsts2
      rw [multiLess_cons_cons] at h1 h2 ⊢
      cases hxy : lessGo x y with
      | none => rw [hxy] at h1; cases h1
      | some u =>
        rw [hxy] at h1
        cases u with
        | true =>
          cases hyz : lessGo y z with
          | none => rw [hyz] at h2; cases h2
          | some w =>
            rw [hyz] at h2
            cases w with
            | true =>
              rw [lessGo_trans x y z s hx hy hz hxy hyz]
            | false =>
              cases hzy : lessGo z y with
              | none => rw [hzy] at h2; cases h2
              | some w2 =>
                rw [hzy] at h2
                cases w2 with
                | true => cases h2
                | false =>
                  cases lessGo_conn y z s hy hz hyz hzy
                  rw [hxy]
        | false =>
          cases hyx : lessGo y x with
          | none => rw [hyx] at h1; cases h1
          | some v =>
            rw [hyx] at h1
            cases v with
            | true => cases h1
            | false =>
              cases lessGo_conn x y s hx hy hxy hyx
              cases hxz : lessGo x z with
              | none => rw [hxz] at h2; cases h2
              | some w =>
                rw [hxz] at h2
                cases w with
                | true => rfl
                | false =>
                  cases hzx : lessGo z x with
                  | none => rw [hzx] at h2; cases h2
                  | some w2 =>
                    rw [hzx] at h2
                    cases w2 with
                    | true => cases h2
                    | false =>
                      cases lessGo_conn x z s hx hz hxz hzx
                      exact multiLess_trans la lb lc ss' hla hlb hlc h1 h2
termination_by la lb lc => sizeOf la + sizeOf lb + sizeOf lc
decreasing_by all_goals (simp_wf; try omega)

end

theorem specLexLess_nil (lb : List GoIndex) :
    specLexLess [] lb = some (decide (0 < lb.length)) := by
  simp [specLexLess, firstDecisive]

theorem specLexLess_cons_nil (a : GoIndex) (la : List GoIndex) :
    specLexLess (a :: la) [] = some false := by
  simp [specLexLess, firstDecisive]

/-- The code's composite walk agrees with the spec's wording of
lexicographic comparison everywhere (fatal cases included). -/
theorem multiLess_eq_specLex : ∀ la lb : List GoIndex,
    multiLess la lb = specLexLess la lb
  | [], lb => by rw [multiLess_nil, specLexLess_nil]
  | a :: la, [] => by rw [multiLess_cons_nil, specLexLess_cons_nil]
  | a :: la, b :: lb => by
      rw [multiLess_cons_cons]
      have hz : (a :: la).zip (b :: lb) = (a, b) :: la.zip lb := rfl
      rw [specLexLess, hz, firstDecisive]
      cases h1 : lessGo a b with
      | none => rfl
      | some u =>
        cases u with
        | true => rfl
        | false =>
          cases h2 : lessGo b a with
          | none => rfl
          | some v =>
            cases v with
            | true => rfl
            | false =>
              rw [multiLess_eq_specLex la lb, specLexLess]
              cases hfd : firstDecisive (la.zip lb) with
              | none => rfl
              | some w =>
                cases w with
                | none => simp
                | some x => rfl

/-- Composites whose paired elements are mutually not-less compare
not-less in both directions. -/
theorem multiLess_of_pairwiseEquiv : ∀ la lb : List GoIndex,
    List.Forall₂ (fun x y => lessGo x y = some false ∧ lessGo y x = some false)
      la lb →
    multiLess la lb = some false ∧ multiLess lb la = some false
  | [], [], _ => by rw [multiLess_nil]; simp
  | a :: la, b :: lb, h => by
      obtain ⟨⟨h1, h2⟩, hrest⟩ := List.forall₂_cons.mp h
      obtain ⟨ih1, ih2⟩ := multiLess_of_pairwiseEquiv la lb hrest
      rw [multiLess_cons_cons, multiLess_cons_cons, h1, h2]
      exact ⟨ih1, ih2⟩

/-- C2 counterexample: the claim says the comparison is irreflexive at
every key including `NoKey`, but `NullIndex.Less` (src/row/index.go,
line 37) returns `true` for every argument, so `NoKey` compares less
than itself. -/
theorem C2_counterexample : lessGo .null .null = some true :=
  lessGo_null .null

/-- C2 (amended): `NoKey` compares less than every key, including
`NoKey` itself (so the relation is not irreflexive at `NoKey`); away
from `NoKey` the relation is irreflexive, and restricted to null-free
keys of one common shape it is asymmetric, transitive, and connex
(mutually not-less keys are equal), i.e. a strict weak ordering. -/
theorem C2_strict_weak_order_amended :
    (∀ i : GoIndex, lessGo .null i = some true) ∧
    (∀ (a : GoIndex) (s : Shape), shapeOf a = some s →
      lessGo a a = some false) ∧
    (∀ (a b : GoIndex) (s : Shape), shapeOf a = some s →
      lessGo a b = some true → lessGo b a = some false) ∧
    (∀ (a b c : GoIndex) (s : Shape), shapeOf a = some s →
      shapeOf b = some s → shapeOf c = some s →
      lessGo a b = some true → lessGo b c = some true →
      lessGo a c = some true) ∧
    (∀ (a b : GoIndex) (s : Shape), shapeOf a = some s →
      shapeOf b = some s →
      lessGo a b = some false → lessGo b a = some false → a = b) :=
  ⟨lessGo_null, lessGo_irrefl, lessGo_asym, lessGo_trans, lessGo_conn⟩

/-- Witness for the amended C2 theorem at concrete keys. -/
theorem C2_strict_weak_order_amended_witness :
    lessGo (.int 3) (.int 3) = some false ∧
    lessGo (.int 7) (.int 5) = some false ∧
    lessGo (.int 2) (.int 9) = some true ∧
    (GoIndex.str "q") = (.str "q") :=
  ⟨C2_strict_weak_order_amended.2.1 (.int 3) .int (by rw [shapeOf]),
   C2_strict_weak_order_amended.2.2.1 (.int 5) (.int 7) .int (by rw [shapeOf])
     (by rw [lessGo_int_int]; rfl),
   C2_strict_weak_order_amended.2.2.2.1 (.int 2) (.int 4) (.int 9) .int
     (by rw [shapeOf]) (by rw [shapeOf]) (by rw [shapeOf])
     (by rw [lessGo_int_int]; rfl) (by rw [lessGo_int_int]; rfl),
   C2_strict_weak_order_amended.2.2.2.2 (.str "q") (.str "q") .str
     (by rw [shapeOf]) (by rw [shapeOf])
     (by rw [lessGo_str_str]; exact congrArg some (decide_eq_false (lt_irrefl _)))
     (by rw [lessGo_str_str]; exact congrArg some (decide_eq_false (lt_irrefl _)))⟩

/-- C3 counterexample: the claim says comparing a string key against an
integer key reports a `KeyTypeMismatch` error to the caller; in the
code (`StringIndex.Less`, src/row/index.go line 126) the comparison
instead calls `log.Fatal`, terminating the process — modelled as the
`none` outcome, with no error value ever returned. -/
theorem C3_counterexample : lessGo (.str "a") (.int 1) = none :=
  lessGo_str_int "a" 1

/-- C3 (amended): comparing two scalar keys of different underlying
kinds terminates the process via `log.Fatal` (the `none` outcome of the
modelled comparison) in both directions, rather than returning a
comparison result or a recoverable error to the caller. -/
theorem C3_mismatch_is_fatal_amended (a : String) (n : Int) :
    lessGo (.str a) (.int n) = none ∧ lessGo (.int n) (.str a) = none :=
  ⟨lessGo_str_int a n, lessGo_int_str n a⟩

/-- C8: composite keys compare lexicographically exactly as the spec
words it (first non-equal pair decides, shorter composite is less when
all shared positions agree); the composite `["a"]` is less than
`["a","b"]`; and equal-length composites whose paired elements are
mutually not-less are Equal (not less either way). -/
theorem C8_composite_lexicographic :
    (∀ la lb : List GoIndex,
      lessGo (.multi la) (.multi lb) = specLexLess la lb) ∧
    lessGo (.multi [.str "a"]) (.multi [.str "a", .str "b"]) = some true ∧
    (∀ la lb : List GoIndex,
      List.Forall₂
        (fun x y => lessGo x y = some false ∧ lessGo y x = some false)
        la lb →
      lessGo (.multi la) (.multi lb) = some false ∧
      lessGo (.multi lb) (.multi la) = some false) := by
  refine ⟨?_, ?_, ?_⟩
  · intro la lb
    rw [lessGo_multi_multi]
    exact multiLess_eq_specLex la lb
  · rw [lessGo_multi_multi, multiLess_cons_cons, lessGo_str_str]
    simp [multiLess_nil]
  · intro la lb h
    rw [lessGo_multi_multi, lessGo_multi_multi]
    exact multiLess_of_pairwiseEquiv la lb h

/-- Witness for C8 at concrete composites: `[1] < [1,2]` is decided by
the prefix rule and `[1,2] ~ [1,2]` is Equal. -/
theorem C8_composite_lexicographic_witness :
    (lessGo (.multi [.int 1, .int 2]) (.multi [.int 1, .int 2]) = some false ∧
     lessGo (.multi [.int 1, .int 2]) (.multi [.int 1, .int 2]) = some false) :=
  C8_composite_lexicographic.2.2 [.int 1, .int 2] [.int 1, .int 2]
    (by
      refine List.Forall₂.cons ?_ (List.Forall₂.cons ?_ List.Forall₂.nil) <;>
        exact ⟨by rw [lessGo_int_int]; rfl, by rw [lessGo_int_int]; rfl⟩)

/-- Go `error` values produced by the core (kept as structured kinds;
the original uses `fmt.Errorf` strings). `addRow` is `Put`'s
`fmt.Errorf("AddRow: %v", err)` wrapper. -/
inductive GoErr where
  | missingColumn (col : String) : GoErr
  | typeDrift (col : String) : GoErr
  | unsupported : GoErr
  | notJoinResult (col : String) : GoErr
  | addRow (e : GoErr) : GoErr
  deriving DecidableEq

/-- The per-value switch of `row.NewIndex`: ints and strings become
scalar indices, anything else is an unsupported value. -/
def toIndexVal : GoValue → Except GoErr GoIndex
  | .int n => .ok (.int n)
  | .str s => .ok (.str s)
  | _ => .error .unsupported

/-- Sequential conversion of the `NewIndex` loop, stopping at the
first unsupported value. -/
def toIndexVals : List GoValue → Except GoErr (List GoIndex)
  | [] => .ok []
  | v :: vs =>
    match toIndexVal v with
    | .error e => .error e
    | .ok i =>
      match toIndexVals vs with
      | .error e => .error e
      | .ok is => .ok (i :: is)

/-- `row.NewIndex` (src/row/index.go lines 43-64): convert each value,
then zero values yield `NullIndex`, one yields the scalar itself, more
yield a `MultiIndex`. -/
def newIndexGo (vals : List GoValue) : Except GoErr GoIndex :=
  match toIndexVals vals with
  | .error e => .error e
  | .ok [] => .ok .null
  | .ok [i] => .ok i
  | .ok is => .ok (.multi is)

/-- Lookup in the `ColumnIndexer.types` map. -/
def typesGet (ts : List (String × GoType)) (c : String) : Option GoType :=
  match ts with
  | [] => none
  | (c', t) :: rest => if c' = c then some t else typesGet rest c

/-- Write to the `ColumnIndexer.types` map (only ever called for a
column already present, per the code path). -/
def typesSet (ts : List (String × GoType)) (c : String) (t : GoType) :
    List (String × GoType) :=
  match ts with
  | [] => []
  | (c', t') :: rest =>
    if c' = c then (c', t) :: rest else (c', t') :: typesSet rest c t

/-- The loop body of `ColumnIndexer.Index` (src/indexer.go lines
48-63): for each configured column, fail with a missing-column error if
the row lacks it; if the type memory already holds a type for the
column, fail with a type-drift error when the dynamic type differs, and
re-store the (equal) type otherwise; collect the values in configured
order. -/
def colIndexLoop (cols : List String) (ts : List (String × GoType))
    (data : Data) : Except GoErr (List GoValue × List (String × GoType)) :=
  match cols with
  | [] => .ok ([], ts)
  | col :: rest =>
    match dataGet data col with
    | none => .error (.missingColumn col)
    | some val =>
      match typesGet ts col with
      | some typ =>
        if typeOf val ≠ some typ then .error (.typeDrift col)
        else
          match colIndexLoop rest (typesSet ts col typ) data with
          | .error e => .error e
          | .ok (vs, ts') => .ok (val :: vs, ts')
      | none =>
        match colIndexLoop rest ts data with
        | .error e => .error e
        | .ok (vs, ts') => .ok (val :: vs, ts')

/-- `group.Column`, the single synthetic column of a grouped frame. -/
def groupColumn : String := "Group"

/-- Project one join-result slot as `JoinResultIndexer.Index` does:
`Left` if non-nil, else `Right` if non-nil, else the nil value;
non-join-result values pass through. -/
def jrProjectVal : GoValue → GoValue
  | .joinResult (some lv) _ => lv
  | .joinResult none (some rv) => rv
  | .joinResult none none => .nilv
  | v => v

/-- The projection map built by `JoinResultIndexer.Index`
(src/join.go lines 45-63). -/
def jrProject (d : Data) : Data :=
  d.map (fun cv => (cv.1, jrProjectVal cv.2))

/-- The `row.Indexer` implementations the repository constructs: the
column indexer (with its per-column type memory as state), the
join-result wrapper, and the group wrapper. -/
inductive GoIndexer where
  | column (cols : List String) (types : List (String × GoType)) : GoIndexer
  | joinRes (inner : GoIndexer) : GoIndexer
  | groupIdx (inner : GoIndexer) : GoIndexer

mutual

/-- Dispatch of `Indexer.Index` over the repository's indexer
implementations. A result carries the possibly updated indexer state
(the Go implementations mutate themselves in place). -/
def indexerIndex : GoIndexer → Data → Except GoErr (GoIndex × GoIndexer)
  | .column cols ts, d =>
    match colIndexLoop cols ts d with
    | .error e => .error e
    | .ok (vals, ts') =>
      match newIndexGo vals with
      | .error e => .error e
      | .ok i => .ok (i, .column cols ts')
  | .joinRes inner, d =>
    match indexerIndex inner (jrProject d) with
    | .error e => .error e
    | .ok (i, inner') => .ok (i, .joinRes inner')
  | .groupIdx inner, d => groupIndexerIndex inner d

/-- Modelled from the spec: `group.Indexer` is referenced by
`Frame.GroupBy` (src/unnamed/part_001 line 342) but its source is not
under `src/`; per spec §4.5 the wrapper delegates to the grouping
indexer over the rows stored in the single synthetic `Group` column, so
a probe is indexed by applying the wrapped indexer to the first row of
its `Group` column. -/
def groupIndexerIndex (inner : GoIndexer) (d : Data) :
    Except GoErr (GoIndex × GoIndexer) :=
  match dataGet d groupColumn with
  | some (.group (g0 :: _)) =>
    match indexerIndex inner g0 with
    | .error e => .error e
    | .ok (i, inner') => .ok (i, .groupIdx inner')
  | _ => .error .unsupported

end

theorem typesSet_same : ∀ (ts : List (String × GoType)) (c : String)
    (t : GoType), typesGet ts c = some t → typesSet ts c t = ts
  | [], c, t, h => by rw [typesGet] at h; cases h
  | (c', t') :: rest, c, t, h => by
      rw [typesGet] at h
      rw [typesSet]
      by_cases hc : c' = c
      · rw [if_pos hc] at h
        rw [if_pos hc]
        injection h with h
        rw [h]
      · rw [if_neg hc] at h
        rw [if_neg hc, typesSet_same rest c t h]

/-- The column indexer's type memory is never changed by a successful
`Index` call (the only write re-stores an equal type). -/
theorem colIndexLoop_state : ∀ (cols : List String)
    (ts : List (String × GoType)) (d : Data) (vs : List GoValue)
    (ts' : List (String × GoType)),
    colIndexLoop cols ts d = .ok (vs, ts') → ts' = ts
  | [], ts, d, vs, ts', h => by
      rw [colIndexLoop] at h
      injection h with h
      injection h with h1 h2
      exact h2.symm
  | col :: rest, ts, d, vs, ts', h => by
      rw [colIndexLoop] at h
      cases hdg : dataGet d col with
      | none => simp only [hdg] at h; cases h
      | some val =>
        simp only [hdg] at h
        cases htg : typesGet ts col with
        | none =>
          simp only [htg] at h
          cases hrec : colIndexLoop rest ts d with
          | error e => simp only [hrec] at h; cases h
          | ok p =>
            obtain ⟨vs2, ts2⟩ := p
            simp only [hrec] at h
            injection h with h
            injection h with h1 h2
            exact h2.symm.trans (colIndexLoop_state rest ts d vs2 ts2 hrec)
        | some typ =>
          simp only [htg] at h
          by_cases hty : typeOf val ≠ some typ
          · rw [if_pos hty] at h; cases h
          · rw [if_neg hty] at h
            cases hrec : colIndexLoop rest (typesSet ts col typ) d with
            | error e => simp only [hrec] at h; cases h
            | ok p =>
              obtain ⟨vs2, ts2⟩ := p
              simp only [hrec] at h
              injection h with h
              injection h with h1 h2
              have hst := colIndexLoop_state rest (typesSet ts col typ) d
                vs2 ts2 hrec
              rw [h2.symm, hst, typesSet_same ts col typ htg]

mutual

/-- A successful `Index` call leaves every indexer in the repository
unchanged: the only mutation in the code is the dead re-store of an
equal type in `ColumnIndexer`. -/
theorem indexerIndex_state : ∀ (idxr : GoIndexer) (d : Data)
    (k : GoIndex) (i' : GoIndexer),
    indexerIndex idxr d = .ok (k, i') → i' = idxr
  | .column cols ts, d, k, i', h => by
      rw [indexerIndex] at h
      cases hcl : colIndexLoop cols ts d with
      | error e => simp only [hcl] at h; cases h
      | ok p =>
        obtain ⟨vals, ts2⟩ := p
        simp only [hcl] at h
        cases hni : newIndexGo vals with
        | error e => simp only [hni] at h; cases h
        | ok i =>
          simp only [hni] at h
          injection h with h
          injection h with h1 h2
          rw [← h2, colIndexLoop_state cols ts d vals ts2 hcl]
  | .joinRes inner, d, k, i', h => by
      rw [indexerIndex] at h
      cases hin : indexerIndex inner (jrProject d) with
      | error e => simp only [hin] at h; cases h
      | ok p =>
        obtain ⟨i, inner2⟩ := p
        simp only [hin] at h
        injection h with h
        injection h with h1 h2
        rw [← h2,
          indexerIndex_state inner (jrProject d) i inner2 hin]
  | .groupIdx inner, d, k, i', h => by
      rw [indexerIndex] at h
      exact groupIndexerIndex_state inner d k i' h

theorem groupIndexerIndex_state : ∀ (inner : GoIndexer) (d : Data)
    (k : GoIndex) (i' : GoIndexer),
    groupIndexerIndex inner d = .ok (k, i') → i' = .groupIdx inner
  | inner, d, k, i', h => by
      rw [groupIndexerIndex] at h
      cases hdg : dataGet d groupColumn with
      | none => simp only [hdg] at h; cases h
      | some v =>
        simp only [hdg] at h
        cases v with
        | group g =>
          cases g with
          | nil => cases h
          | cons g0 grest =>
            cases hin : indexerIndex inner g0 with
            | error e => simp only [hin] at h; cases h
            | ok p =>
              obtain ⟨i, inner2⟩ := p
              simp only [hin] at h
              injection h with h
              injection h with h1 h2
              rw [← h2,
                indexerIndex_state inner g0 i inner2 hin]
        | nilv => cases h
        | int n => cases h
        | str s => cases h
        | joinResult l r => cases h

end

theorem toIndexVal_shape : ∀ (v : GoValue) (i : GoIndex),
    toIndexVal v = .ok i → ∃ s, shapeOf i = some s
  | .int n, i, h => by
      rw [toIndexVal] at h; injection h with h; rw [← h]
      exact ⟨.int, by rw [shapeOf]⟩
  | .str s, i, h => by
      rw [toIndexVal] at h; injection h with h; rw [← h]
      exact ⟨.str, by rw [shapeOf]⟩
  | .nilv, i, h => by simp [toIndexVal] at h
  | .joinResult _ _, i, h => by simp [toIndexVal] at h
  | .group _, i, h => by simp [toIndexVal] at h

theorem toIndexVals_shape : ∀ (vs : List GoValue) (is : List GoIndex),
    toIndexVals vs = .ok is → ∃ ss, shapeList is = some ss
  | [], is, h => by
      rw [toIndexVals] at h; injection h with h; rw [← h]
      exact ⟨[], by rw [shapeList]⟩
  | v :: vs, is, h => by
      rw [toIndexVals] at h
      cases hv : toIndexVal v with
      | error e => simp only [hv] at h; cases h
      | ok i =>
        simp only [hv] at h
        cases hvs : toIndexVals vs with
        | error e => simp only [hvs] at h; cases h
        | ok irest =>
          simp only [hvs] at h
          injection h with h
          rw [← h]
          obtain ⟨s, hs⟩ := toIndexVal_shape v i hv
          obtain ⟨ss, hss⟩ := toIndexVals_shape vs irest hvs
          exact ⟨s :: ss, by rw [shapeList, hs, hss]⟩

/-- Every key `row.NewIndex` builds is either `NullIndex` or
null-free. -/
theorem newIndexGo_wf : ∀ (vals : List GoValue) (k : GoIndex),
    newIndexGo vals = .ok k → k = .null ∨ ∃ s, shapeOf k = some s := by
  intro vals k h
  rw [newIndexGo] at h
  cases hvs : toIndexVals vals with
  | error e => simp only [hvs] at h; cases h
  | ok is =>
    simp only [hvs] at h
    obtain ⟨ss, hss⟩ := toIndexVals_shape vals is hvs
    cases is with
    | nil => injection h with h; exact .inl h.symm
    | cons i irest =>
      cases irest with
      | nil =>
        injection h with h
        rw [← h]
        obtain ⟨s, ss', hs, -, -⟩ := shapeList_cons hss
        exact .inr ⟨s, hs⟩
      | cons i2 irest2 =>
        injection h with h
        rw [← h]
        exact .inr ⟨.multi ss, by rw [shapeOf, hss]; rfl⟩

mutual

/-- Every key produced by any of the repository's indexers is either
`NullIndex` or null-free. -/
theorem indexerIndex_wf : ∀ (idxr : GoIndexer) (d : Data) (k : GoIndex)
    (i' : GoIndexer), indexerIndex idxr d = .ok (k, i') →
    k = .null ∨ ∃ s, shapeOf k = some s
  | .column cols ts, d, k, i', h => by
      rw [indexerIndex] at h
      cases hcl : colIndexLoop cols ts d with
      | error e => simp only [hcl] at h; cases h
      | ok p =>
        obtain ⟨vals, ts2⟩ := p
        simp only [hcl] at h
        cases hni : newIndexGo vals with
        | error e => simp only [hni] at h; cases h
        | ok i =>
          simp only [hni] at h
          injection h with h
          injection h with h1 h2
          rw [← h1]
          exact newIndexGo_wf vals i hni
  | .joinRes inner, d, k, i', h => by
      rw [indexerIndex] at h
      cases hin : indexerIndex inner (jrProject d) with
      | error e => simp only [hin] at h; cases h
      | ok p =>
        obtain ⟨i, inner2⟩ := p
        simp only [hin] at h
        injection h with h
        injection h with h1 h2
        rw [← h1]
        exact indexerIndex_wf inner (jrProject d) i inner2 hin
  | .groupIdx inner, d, k, i', h => by
      rw [indexerIndex] at h
      exact groupIndexerIndex_wf inner d k i' h

theorem groupIndexerIndex_wf : ∀ (inner : GoIndexer) (d : Data)
    (k : GoIndex) (i' : GoIndexer),
    groupIndexerIndex inner d = .ok (k, i') →
    k = .null ∨ ∃ s, shapeOf k = some s
  | inner, d, k, i', h => by
      rw [groupIndexerIndex] at h
      cases hdg : dataGet d groupColumn with
      | none => simp only [hdg] at h; cases h
      | some v =>
        simp only [hdg] at h
        cases v with
        | group g =>
          cases g with
          | nil => cases h
          | cons g0 grest =>
            cases hin : indexerIndex inner g0 with
            | error e => simp only [hin] at h; cases h
            | ok p =>
              obtain ⟨i, inner2⟩ := p
              simp only [hin] at h
              injection h with h
              injection h with h1 h2
              rw [← h1]
              exact indexerIndex_wf inner g0 i inner2 hin
        | nilv => cases h
        | int n => cases h
        | str s => cases h
        | joinResult l r => cases h

end

/-- Classifies results of the column-indexer loop run from an empty
type memory: no type-drift error is possible and the memory stays
empty. -/
def noDriftResult :
    Except GoErr (List GoValue × List (String × GoType)) → Prop
  | .error (.typeDrift _) => False
  | .ok (_, ts') => ts' = []
  | _ => True

theorem colIndexLoop_empty_noDrift : ∀ (cols : List String) (d : Data),
    noDriftResult (colIndexLoop cols [] d)
  | [], d => by rw [colIndexLoop]; exact rfl
  | col :: rest, d => by
      rw [colIndexLoop]
      cases hdg : dataGet d col with
      | none => exact trivial
      | some val =>
        have ih := colIndexLoop_empty_noDrift rest d
        show noDriftResult
          (match typesGet [] col with
            | some typ =>
              if typeOf val ≠ some typ then .error (.typeDrift col)
              else
                match colIndexLoop rest (typesSet [] col typ) d with
                | .error e => .error e
                | .ok (vs, ts') => .ok (val :: vs, ts')
            | none =>
              match colIndexLoop rest [] d with
              | .error e => .error e
              | .ok (vs, ts') => .ok (val :: vs, ts'))
        rw [show typesGet [] col = none from rfl]
        cases hrec : colIndexLoop rest [] d with
        | error e =>
          rw [hrec] at ih
          cases e with
          | typeDrift c => exact ih.elim
          | missingColumn c => exact trivial
          | unsupported => exact trivial
          | notJoinResult c => exact trivial
          | addRow e2 => exact trivial
        | ok p =>
          obtain ⟨vs, ts'⟩ := p
          rw [hrec] at ih
          exact ih

/-- C1 (code_bug): the write `c.types[col] = newType` in
`ColumnIndexer.Index` (src/indexer.go line 59) sits inside the
`if typ, ok := c.types[col]; ok` branch, so the type memory created
empty by `NewColumnIndexer` is never populated and the type-drift check
never fires, contradicting the indexer's own documentation ("fails if
the underlying type changes for a given column") and the claim: after
indexing column `"x"` with an integer, indexing `"x"` with a string
succeeds instead of failing with `TypeDrift`. -/
theorem C1_typeDrift_unreachable :
    (∀ (cols : List String) (d : Data),
      noDriftResult (colIndexLoop cols [] d)) ∧
    indexerIndex (.column ["x"] []) [("x", .int 1)] =
      .ok (.int 1, .column ["x"] []) ∧
    indexerIndex (.column ["x"] []) [("x", .str "foo")] =
      .ok (.str "foo", .column ["x"] []) :=
  ⟨colIndexLoop_empty_noDrift,
   by simp [indexerIndex, colIndexLoop, dataGet, typesGet, newIndexGo,
        toIndexVal, toIndexVals],
   by simp [indexerIndex, colIndexLoop, dataGet, typesGet, newIndexGo,
        toIndexVal, toIndexVals]⟩

/-- `row.Row`: one tree entry, the key and the row's column map. -/
structure GoRow where
  index : GoIndex
  data : Data

/-- `btree.ReplaceOrInsert` on the ordered entry list: walk ascending;
insert in front of the first strictly greater entry; replace (returning
the old data) an entry that compares equal (neither less); `none`
models a `log.Fatal` comparison. -/
def putList (r : GoRow) : List GoRow → Option (Option Data × List GoRow)
  | [] => some (none, [r])
  | x :: xs =>
    match lessGo r.index x.index with
    | none => none
    | some true => some (none, r :: x :: xs)
    | some false =>
      match lessGo x.index r.index with
      | none => none
      | some true =>
        match putList r xs with
        | none => none
        | some (prev, ys) => some (prev, x :: ys)
      | some false => some (some x.data, r :: xs)

/-- `btree.Get` on the ordered entry list: the entry that compares
equal to the probe key, if the scan does not pass it. -/
def getList (k : GoIndex) : List GoRow → Option (Option Data)
  | [] => some none
  | x :: xs =>
    match lessGo k x.index with
    | none => none
    | some true => some none
    | some false =>
      match lessGo x.index k with
      | none => none
      | some true => getList k xs
      | some false => some (some x.data)

/-- `btree.Delete` on the ordered entry list: remove and return the
entry that compares equal to the key, if any. -/
def delList (k : GoIndex) : List GoRow → Option (Option Data × List GoRow)
  | [] => some (none, [])
  | x :: xs =>
    match lessGo k x.index with
    | none => none
    | some true => some (none, x :: xs)
    | some false =>
      match lessGo x.index k with
      | none => none
      | some true =>
        match delList k xs with
        | none => none
        | some (prev, ys) => some (prev, x :: ys)
      | some false => some (some x.data, xs)

/-- `Frame`: the btree of rows plus the owning indexer. -/
structure GoFrame where
  rows : List GoRow
  indexer : GoIndexer

/-- `Frame.Put` (src/unnamed/part_001 lines 43-59): index the data
(wrapping an indexing error), then `ReplaceOrInsert`, returning the
replaced row's data if any. -/
def frPut (f : GoFrame) (d : Data) :
    Option (Except GoErr (Option Data × GoFrame)) :=
  match indexerIndex f.indexer d with
  | .error e => some (.error (.addRow e))
  | .ok (k, i') =>
    match putList ⟨k, d⟩ f.rows with
    | none => none
    | some (prev, rows') => some (.ok (prev, ⟨rows', i'⟩))

/-- `Frame.Get` (src/unnamed/part_001 lines 63-75): index the probe and
look up; `none` data when absent. -/
def frGet (f : GoFrame) (d : Data) :
    Option (Except GoErr (Option Data × GoFrame)) :=
  match indexerIndex f.indexer d with
  | .error e => some (.error e)
  | .ok (k, i') =>
    match getList k f.rows with
    | none => none
    | some res => some (.ok (res, ⟨f.rows, i'⟩))

/-- `Frame.Pop` (src/unnamed/part_001 lines 80-91): index the probe and
delete, returning the removed row's data if any. -/
def frPop (f : GoFrame) (d : Data) :
    Option (Except GoErr (Option Data × GoFrame)) :=
  match indexerIndex f.indexer d with
  | .error e => some (.error e)
  | .ok (k, i') =>
    match delList k f.rows with
    | none => none
    | some (res, rows') => some (.ok (res, ⟨rows', i'⟩))

/-- After a successful insert of a null-free key, scanning for that key
finds the just-stored data. -/
theorem getList_putList_self : ∀ (rows : List GoRow) (k : GoIndex)
    (d : Data) (s : Shape) (prev : Option Data) (rows' : List GoRow),
    shapeOf k = some s → putList ⟨k, d⟩ rows = some (prev, rows') →
    getList k rows' = some (some d)
  | [], k, d, s, prev, rows', hs, h => by
      rw [putList] at h
      injection h with h
      injection h with h1 h2
      rw [← h2, getList, lessGo_irrefl k s hs]
  | x :: xs, k, d, s, prev, rows', hs, h => by
      rw [putList] at h
      cases hkx : lessGo k x.index with
      | none => simp only [hkx] at h; cases h
      | some u =>
        simp only [hkx] at h
        cases u with
        | true =>
          injection h with h
          injection h with h1 h2
          rw [← h2, getList, lessGo_irrefl k s hs]
        | false =>
          cases hxk : lessGo x.index k with
          | none => simp only [hxk] at h; cases h
          | some v =>
            simp only [hxk] at h
            cases v with
            | false =>
              injection h with h
              injection h with h1 h2
              rw [← h2, getList, lessGo_irrefl k s hs]
            | true =>
              cases hrec : putList ⟨k, d⟩ xs with
              | none => simp only [hrec] at h; cases h
              | some p =>
                obtain ⟨prev2, ys⟩ := p
                simp only [hrec] at h
                injection h with h
                injection h with h1 h2
                rw [← h2, getList, hkx, hxk]
                exact getList_putList_self xs k d s prev2 ys hs hrec

/-- The data returned by an insert is exactly what a lookup before the
insert would have found. -/
theorem putList_prev_getList : ∀ (rows : List GoRow) (k : GoIndex)
    (d : Data) (prev : Option Data) (rows' : List GoRow),
    putList ⟨k, d⟩ rows = some (prev, rows') → getList k rows = some prev
  | [], k, d, prev, rows', h => by
      rw [putList] at h
      injection h with h
      injection h with h1 h2
      rw [getList, ← h1]
  | x :: xs, k, d, prev, rows', h => by
      rw [putList] at h
      rw [getList]
      cases hkx : lessGo k x.index with
      | none => simp only [hkx] at h; cases h
      | some u =>
        simp only [hkx] at h
        cases u with
        | true =>
          injection h with h
          injection h with h1 h2
          rw [← h1]
        | false =>
          cases hxk : lessGo x.index k with
          | none => simp only [hxk] at h; cases h
          | some v =>
            simp only [hxk] at h
            cases v with
            | false =>
              injection h with h
              injection h with h1 h2
              rw [← h1]
            | true =>
              cases hrec : putList ⟨k, d⟩ xs with
              | none => simp only [hrec] at h; cases h
              | some p =>
                obtain ⟨prev2, ys⟩ := p
                simp only [hrec] at h
                injection h with h
                injection h with h1 h2
                rw [← h1]
                exact putList_prev_getList xs k d prev2 ys hrec

/-- A lookup result determines that an insert with the same key
succeeds, replacing exactly the found entry. -/
theorem putList_of_getList : ∀ (rows : List GoRow) (k : GoIndex)
    (d : Data) (res : Option Data), getList k rows = some res →
    ∃ rows', putList ⟨k, d⟩ rows = some (res, rows')
  | [], k, d, res, h => by
      rw [getList] at h
      injection h with h
      exact ⟨[⟨k, d⟩], by rw [putList, ← h]⟩
  | x :: xs, k, d, res, h => by
      rw [getList] at h
      cases hkx : lessGo k x.index with
      | none => simp only [hkx] at h; cases h
      | some u =>
        simp only [hkx] at h
        cases u with
        | true =>
          injection h with h
          exact ⟨⟨k, d⟩ :: x :: xs, by rw [putList, hkx, ← h]⟩
        | false =>
          cases hxk : lessGo x.index k with
          | none => simp only [hxk] at h; cases h
          | some v =>
            simp only [hxk] at h
            cases v with
            | false =>
              injection h with h
              exact ⟨⟨k, d⟩ :: xs, by rw [putList, hkx, hxk, ← h]⟩
            | true =>
              obtain ⟨ys, hys⟩ := putList_of_getList xs k d res h
              exact ⟨x :: ys, by rw [putList, hkx, hxk, hys]⟩

/-- Insert grows the entry list by one exactly when nothing was
replaced. -/
theorem putList_length : ∀ (rows : List GoRow) (r : GoRow)
    (prev : Option Data) (rows' : List GoRow),
    putList r rows = some (prev, rows') →
    rows'.length = (match prev with
      | none => rows.length + 1
      | some _ => rows.length)
  | [], r, prev, rows', h => by
      rw [putList] at h
      injection h with h
      injection h with h1 h2
      rw [← h1, ← h2]
      rfl
  | x :: xs, r, prev, rows', h => by
      rw [putList] at h
      cases hkx : lessGo r.index x.index with
      | none => simp only [hkx] at h; cases h
      | some u =>
        simp only [hkx] at h
        cases u with
        | true =>
          injection h with h
          injection h with h1 h2
          rw [← h1, ← h2]
          rfl
        | false =>
          cases hxk : lessGo x.index r.index with
          | none => simp only [hxk] at h; cases h
          | some v =>
            simp only [hxk] at h
            cases v with
            | false =>
              injection h with h
              injection h with h1 h2
              rw [← h1, ← h2]
              rfl
            | true =>
              cases hrec : putList r xs with
              | none => simp only [hrec] at h; cases h
              | some p =>
                obtain ⟨prev2, ys⟩ := p
                simp only [hrec] at h
                injection h with h
                injection h with h1 h2
                have ih := putList_length xs r prev2 ys hrec
                rw [← h1, ← h2]
                cases prev2 with
                | none => simp [List.length_cons, ih]
                | some q => simp [List.length_cons, ih]

/-- A found entry means the probe key is not `NullIndex` (whose `Less`
is constantly true). -/
theorem getList_found_ne_null : ∀ (rows : List GoRow) (k : GoIndex)
    (p : Data), getList k rows = some (some p) → k ≠ .null
  | [], k, p, h => by rw [getList] at h; injection h with h; cases h
  | x :: xs, k, p, h => by
      rw [getList] at h
      cases hkx : lessGo k x.index with
      | none => simp only [hkx] at h; cases h
      | some u =>
        simp only [hkx] at h
        cases u with
        | true => injection h with h; cases h
        | false =>
          intro hk
          rw [hk, lessGo_null] at hkx
          cases hkx

/-- C6 counterexample: with a zero-column indexer every row keys to
`NoKey`; a `Put` succeeds (inserting a fresh entry) yet the immediately
following `Get` with the very same row returns no data, because
`NullIndex` compares less than everything including itself and the
lookup never finds the entry. -/
theorem C6_counterexample :
    frPut ⟨[], .column [] []⟩ [("a", .int 1)] =
      some (.ok (none, ⟨[⟨.null, [("a", .int 1)]⟩], .column [] []⟩)) ∧
    frGet ⟨[⟨.null, [("a", .int 1)]⟩], .column [] []⟩ [("a", .int 1)] =
      some (.ok (none, ⟨[⟨.null, [("a", .int 1)]⟩], .column [] []⟩)) := by
  constructor
  · simp [frPut, indexerIndex, colIndexLoop, newIndexGo, toIndexVals,
      putList]
  · simp [frGet, indexerIndex, colIndexLoop, newIndexGo, toIndexVals,
      getList, lessGo_null]

/-- C6 (amended): for every frame and row `r` successfully `Put` whose
computed key is not the `NoKey` sentinel, a subsequent `Get` using `r`
as the probe returns `r`'s stored columns (not none). -/
theorem C6_roundtrip_amended (f : GoFrame) (d : Data) (k : GoIndex)
    (i' : GoIndexer) (prev : Option Data) (f' : GoFrame)
    (hidx : indexerIndex f.indexer d = .ok (k, i'))
    (hk : k ≠ .null)
    (hput : frPut f d = some (.ok (prev, f'))) :
    frGet f' d = some (.ok (some d, f')) := by
  have hst : i' = f.indexer := indexerIndex_state f.indexer d k i' hidx
  obtain ⟨s, hs⟩ : ∃ s, shapeOf k = some s := by
    rcases indexerIndex_wf f.indexer d k i' hidx with h | h
    · exact absurd h hk
    · exact h
  rw [frPut] at hput
  simp only [hidx] at hput
  cases hpl : putList ⟨k, d⟩ f.rows with
  | none => simp only [hpl] at hput; cases hput
  | some p =>
    obtain ⟨prev2, rows2⟩ := p
    simp only [hpl] at hput
    injection hput with hput
    injection hput with hput
    injection hput with hp1 hp2
    rw [← hp2]
    simp only [frGet, hst, hidx,
      getList_putList_self f.rows k d s prev2 rows2 hs hpl]

/-- Witness for the amended C6 round-trip at a one-column frame. -/
theorem C6_roundtrip_amended_witness :
    frGet ⟨[⟨.int 5, [("i", .int 5), ("v", .str "x")]⟩], .column ["i"] []⟩
        [("i", .int 5), ("v", .str "x")] =
      some (.ok (some [("i", .int 5), ("v", .str "x")],
        ⟨[⟨.int 5, [("i", .int 5), ("v", .str "x")]⟩], .column ["i"] []⟩)) :=
  C6_roundtrip_amended ⟨[], .column ["i"] []⟩
    [("i", .int 5), ("v", .str "x")] (.int 5) (.column ["i"] []) none
    ⟨[⟨.int 5, [("i", .int 5), ("v", .str "x")]⟩], .column ["i"] []⟩
    (by simp [indexerIndex, colIndexLoop, dataGet, typesGet, newIndexGo,
      toIndexVals, toIndexVal])
    (by intro h; cases h)
    (by simp [frPut, indexerIndex, colIndexLoop, dataGet, typesGet,
      newIndexGo, toIndexVals, toIndexVal, putList])

/-- C7: `Put` of a row whose computed key is already occupied (the
lookup finds an entry) replaces the stored entry — same entry count —
and returns the previous row's data, and a subsequent `Get` at that key
returns the new data; `Put` at an unoccupied key inserts a fresh entry
and reports no previous row. -/
theorem C7_replace_semantics (f : GoFrame) (d : Data) (k : GoIndex)
    (i' : GoIndexer)
    (hidx : indexerIndex f.indexer d = .ok (k, i')) :
    (∀ p, getList k f.rows = some (some p) →
      ∃ f', frPut f d = some (.ok (some p, f')) ∧
        f'.rows.length = f.rows.length ∧
        frGet f' d = some (.ok (some d, f'))) ∧
    (getList k f.rows = some none →
      ∃ f', frPut f d = some (.ok (none, f')) ∧
        f'.rows.length = f.rows.length + 1) := by
  constructor
  · intro p hfound
    obtain ⟨rows', hpl⟩ := putList_of_getList f.rows k d (some p) hfound
    have hput : frPut f d = some (.ok (some p, ⟨rows', i'⟩)) := by
      simp only [frPut, hidx, hpl]
    refine ⟨⟨rows', i'⟩, hput, ?_, ?_⟩
    · have := putList_length f.rows ⟨k, d⟩ (some p) rows' hpl
      simpa using this
    · exact C6_roundtrip_amended f d k i' (some p) ⟨rows', i'⟩ hidx
        (getList_found_ne_null f.rows k p hfound) hput
  · intro hnone
    obtain ⟨rows', hpl⟩ := putList_of_getList f.rows k d none hnone
    refine ⟨⟨rows', i'⟩, by simp only [frPut, hidx, hpl], ?_⟩
    have := putList_length f.rows ⟨k, d⟩ none rows' hpl
    simpa using this

/-- Witness for C7 at a concrete one-column frame: a second `Put` at
the occupied key `1` replaces, and a `Put` at the free key `2`
inserts. -/
theorem C7_replace_semantics_witness :
    (∃ f', frPut ⟨[⟨.int 1, [("i", .int 1), ("v", .str "a")]⟩],
          .column ["i"] []⟩ [("i", .int 1), ("v", .str "b")] =
        some (.ok (some [("i", .int 1), ("v", .str "a")], f')) ∧
      f'.rows.length = 1 ∧
      frGet f' [("i", .int 1), ("v", .str "b")] =
        some (.ok (some [("i", .int 1), ("v", .str "b")], f'))) := by
  have h := (C7_replace_semantics
    ⟨[⟨.int 1, [("i", .int 1), ("v", .str "a")]⟩], .column ["i"] []⟩
    [("i", .int 1), ("v", .str "b")] (.int 1) (.column ["i"] [])
    (by simp [indexerIndex, colIndexLoop, dataGet, typesGet, newIndexGo,
      toIndexVals, toIndexVal])).1
    [("i", .int 1), ("v", .str "a")]
    (by simp [getList, lessGo_int_int])
  simpa using h

/-- C10: a frame whose indexer is configured with zero columns keys
every row to `NoKey`; `Get` then returns no data for every probe —
including a probe identical to a row just successfully `Put` — and
`Put` never reports a previous row: each `Put` inserts a fresh entry
(at the front) instead of replacing the entry already stored under the
same `NoKey` key. -/
theorem C10_nokey_frame (f : GoFrame) (ts : List (String × GoType))
    (d p : Data) (hind : f.indexer = .column [] ts) :
    frGet f d = some (.ok (none, f)) ∧
    frPut f p = some (.ok (none,
      ⟨⟨.null, p⟩ :: f.rows, .column [] ts⟩)) ∧
    frGet ⟨⟨.null, p⟩ :: f.rows, .column [] ts⟩ p =
      some (.ok (none, ⟨⟨.null, p⟩ :: f.rows, .column [] ts⟩)) := by
  have hnullidx : ∀ d0 : Data, indexerIndex (.column [] ts) d0 =
      .ok (.null, .column [] ts) := by
    intro d0
    simp [indexerIndex, colIndexLoop, newIndexGo, toIndexVals]
  have hget : ∀ rows : List GoRow, getList .null rows = some none := by
    intro rows
    cases rows with
    | nil => rw [getList]
    | cons x xs => rw [getList, lessGo_null]
  have hputn : ∀ (rows : List GoRow) (q : Data),
      putList ⟨.null, q⟩ rows = some (none, ⟨.null, q⟩ :: rows) := by
    intro rows q
    cases rows with
    | nil => rw [putList]
    | cons x xs =>
      rw [putList]
      simp only [lessGo_null]
  obtain ⟨rows0, idx0⟩ := f
  simp only at hind
  subst hind
  refine ⟨?_, ?_, ?_⟩
  · simp only [frGet, hnullidx d, hget rows0]
  · simp only [frPut, hnullidx p, hputn rows0 p]
  · simp only [frGet, hnullidx p, hget (⟨.null, p⟩ :: rows0)]

/-- Witness for C10 at a concrete empty zero-column frame. -/
theorem C10_nokey_frame_witness :
    frGet ⟨[], .column [] []⟩ [("a", .int 1)] =
      some (.ok (none, ⟨[], .column [] []⟩)) ∧
    frPut ⟨[], .column [] []⟩ [("b", .int 2)] =
      some (.ok (none, ⟨[⟨.null, [("b", .int 2)]⟩], .column [] []⟩)) ∧
    frGet ⟨[⟨.null, [("b", .int 2)]⟩], .column [] []⟩ [("b", .int 2)] =
      some (.ok (none, ⟨[⟨.null, [("b", .int 2)]⟩], .column [] []⟩)) :=
  C10_nokey_frame ⟨[], .column [] []⟩ [] [("a", .int 1)] [("b", .int 2)]
    rfl

/-- `rangeOptions` (src/unnamed/part_001 lines 94-97): optional
inclusive lower and exclusive upper probe rows. -/
structure RangeOpts where
  greaterOrEqual : Option Data
  lessThan : Option Data

/-- `btree.AscendGreaterOrEqual` start: drop entries strictly below the
pivot (`item.Less(pivot)`), keeping the rest in ascending order. -/
def ascendGE (pivot : GoIndex) : List GoRow → Option (List GoRow)
  | [] => some []
  | x :: xs =>
    match lessGo x.index pivot with
    | none => none
    | some true => ascendGE pivot xs
    | some false => some (x :: xs)

/-- `btree.AscendLessThan`: keep entries strictly below the pivot,
stopping at the first that is not. -/
def ascendLT (pivot : GoIndex) : List GoRow → Option (List GoRow)
  | [] => some []
  | x :: xs =>
    match lessGo x.index pivot with
    | none => none
    | some false => some []
    | some true =>
      match ascendLT pivot xs with
      | none => none
      | some ys => some (x :: ys)

/-- The bound-dispatch of `Frame.forRange` (src/unnamed/part_001 lines
153-177): index the present bounds through the frame's indexer (lower
bound first, as the code does) and compute the ascending iteration
sequence. -/
def selectRows (f : GoFrame) (opts : RangeOpts) :
    Option (Except GoErr (List GoRow × GoIndexer)) :=
  match opts.lessThan, opts.greaterOrEqual with
  | none, none => some (.ok (f.rows, f.indexer))
  | none, some ge =>
    match indexerIndex f.indexer ge with
    | .error e => some (.error e)
    | .ok (pivot, i') =>
      match ascendGE pivot f.rows with
      | none => none
      | some sel => some (.ok (sel, i'))
  | some lt, none =>
    match indexerIndex f.indexer lt with
    | .error e => some (.error e)
    | .ok (pivot, i') =>
      match ascendLT pivot f.rows with
      | none => none
      | some sel => some (.ok (sel, i'))
  | some lt, some ge =>
    match indexerIndex f.indexer ge with
    | .error e => some (.error e)
    | .ok (b, i1) =>
      match indexerIndex i1 lt with
      | .error e => some (.error e)
      | .ok (eidx, i2) =>
        match ascendGE b f.rows with
        | none => none
        | some suffix =>
          match ascendLT eidx suffix with
          | none => none
          | some sel => some (.ok (sel, i2))

/-- The iterator loop of `forRange`: apply the row action to each
selected entry in order, stopping at (and returning) the first error,
keeping the values accumulated so far. -/
def runActions (action : GoRow → Except GoErr α) :
    List GoRow → List α × Option GoErr
  | [] => ([], none)
  | x :: xs =>
    match action x with
    | .error e => ([], some e)
    | .ok v =>
      match runActions action xs with
      | (vs, e) => (v :: vs, e)

/-- `Frame.forRange` (src/unnamed/part_001 lines 138-180): compute the
bounded ascending sequence, then run the action over it; returns the
accumulated values, the aborting error if any, and the (threaded)
indexer. A bound-indexing error returns before any iteration. -/
def forRangeGo (f : GoFrame) (opts : RangeOpts)
    (action : GoRow → Except GoErr α) :
    Option (Except GoErr (List α × Option GoErr × GoIndexer)) :=
  match selectRows f opts with
  | none => none
  | some (.error e) => some (.error e)
  | some (.ok (sel, i')) =>
    match runActions action sel with
    | (vs, e) => some (.ok (vs, e, i'))

/-- `Frame.GetRange` (src/unnamed/part_001 lines 204-218): `forRange`
with the data-projecting action; any error is surfaced and the partial
values are discarded. -/
def getRangeGo (f : GoFrame) (opts : RangeOpts) :
    Option (Except GoErr (List Data × GoIndexer)) :=
  match forRangeGo f opts (fun r => .ok r.data) with
  | none => none
  | some (.error e) => some (.error e)
  | some (.ok (_, some e, _)) => some (.error e)
  | some (.ok (vs, none, i')) => some (.ok (vs, i'))

/-- Delete the listed keys one after the other (the second phase of
`PopRange`). -/
def delListAll : List GoIndex → List GoRow → Option (List GoRow)
  | [], rows => some rows
  | k :: ks, rows =>
    match delList k rows with
    | none => none
    | some (_, rows') => delListAll ks rows'

/-- `Frame.PopRange` (src/unnamed/part_001 lines 222-245): select all
rows in the range through `forRange` (phase one); on any error return
it with the tree untouched; otherwise delete every selected key (phase
two) and return the selected rows' data. -/
def popRangeGo (f : GoFrame) (opts : RangeOpts) :
    Option (Except GoErr (List Data) × GoFrame) :=
  match forRangeGo f opts (fun r => .ok r) with
  | none => none
  | some (.error e) => some (.error e, f)
  | some (.ok (_, some e, i')) => some (.error e, ⟨f.rows, i'⟩)
  | some (.ok (sel, none, i')) =>
    match delListAll (sel.map (·.index)) f.rows with
    | none => none
    | some rows' => some (.ok (sel.map (·.data)), ⟨rows', i'⟩)

/-- Strict order on keys: the comparison returned `true`. -/
def ltK (a b : GoIndex) : Prop := lessGo a b = some true

/-- The tree invariant: entries pairwise ascending in key order. -/
def sortedRows (rows : List GoRow) : Prop :=
  rows.Pairwise (fun x y => ltK x.index y.index)

/-- All entry keys share one shape. -/
def rowsShaped (s : Shape) (rows : List GoRow) : Prop :=
  ∀ r ∈ rows, shapeOf r.index = some s

theorem ne_of_ltK {a b : GoIndex} {s : Shape} (hs : shapeOf a = some s)
    (h : lessGo a b = some true) : a ≠ b := by
  intro he
  subst he
  rw [lessGo_irrefl a s hs] at h
  cases h

theorem runActions_id : ∀ sel : List GoRow,
    runActions (fun r => (.ok r : Except GoErr GoRow)) sel = (sel, none)
  | [] => by rw [runActions]
  | x :: xs => by rw [runActions, runActions_id xs]

theorem runActions_data : ∀ sel : List GoRow,
    runActions (fun r => (.ok r.data : Except GoErr Data)) sel =
      (sel.map (·.data), none)
  | [] => by rw [runActions]; rfl
  | x :: xs => by rw [runActions, runActions_data xs]; rfl

theorem ascendGE_sublist : ∀ (pivot : GoIndex) (rows sel : List GoRow),
    ascendGE pivot rows = some sel → sel.Sublist rows
  | pivot, [], sel, h => by
      rw [ascendGE] at h; injection h with h; rw [← h]
  | pivot, x :: xs, sel, h => by
      rw [ascendGE] at h
      cases hc : lessGo x.index pivot with
      | none => simp only [hc] at h; cases h
      | some u =>
        simp only [hc] at h
        cases u with
        | true => exact (ascendGE_sublist pivot xs sel h).cons x
        | false => injection h with h; rw [← h]

theorem ascendLT_sublist : ∀ (pivot : GoIndex) (rows sel : List GoRow),
    ascendLT pivot rows = some sel → sel.Sublist rows
  | pivot, [], sel, h => by
      rw [ascendLT] at h; injection h with h; rw [← h]
  | pivot, x :: xs, sel, h => by
      rw [ascendLT] at h
      cases hc : lessGo x.index pivot with
      | none => simp only [hc] at h; cases h
      | some u =>
        simp only [hc] at h
        cases u with
        | false =>
          injection h with h
          rw [← h]
          exact List.nil_sublist _
        | true =>
          cases hrec : ascendLT pivot xs with
          | none => simp only [hrec] at h; cases h
          | some ys =>
            simp only [hrec] at h
            injection h with h
            rw [← h]
            exact (ascendLT_sublist pivot xs ys hrec).cons₂ x

/-- A successful selection is a subsequence of the tree and leaves the
frame's indexer unchanged. -/
theorem selectRows_spec (f : GoFrame) (opts : RangeOpts)
    (sel : List GoRow) (i' : GoIndexer)
    (h : selectRows f opts = some (.ok (sel, i'))) :
    sel.Sublist f.rows ∧ i' = f.indexer := by
  rw [selectRows] at h
  cases hlt : opts.lessThan with
  | none =>
    cases hge : opts.greaterOrEqual with
    | none =>
      rw [hlt, hge] at h
      injection h with h
      injection h with h
      injection h with h1 h2
      rw [← h1, ← h2]
      exact ⟨List.Sublist.refl _, rfl⟩
    | some ge =>
      rw [hlt, hge] at h
      cases hidx : indexerIndex f.indexer ge with
      | error e => simp only [hidx] at h; cases h
      | ok p =>
        obtain ⟨pivot, i2⟩ := p
        simp only [hidx] at h
        cases hasc : ascendGE pivot f.rows with
        | none => simp only [hasc] at h; cases h
        | some sel2 =>
          simp only [hasc] at h
          injection h with h
          injection h with h
          injection h with h1 h2
          rw [← h1, ← h2]
          exact ⟨ascendGE_sublist pivot f.rows sel2 hasc,
            indexerIndex_state f.indexer ge pivot i2 hidx⟩
  | some lt =>
    cases hge : opts.greaterOrEqual with
    | none =>
      rw [hlt, hge] at h
      cases hidx : indexerIndex f.indexer lt with
      | error e => simp only [hidx] at h; cases h
      | ok p =>
        obtain ⟨pivot, i2⟩ := p
        simp only [hidx] at h
        cases hasc : ascendLT pivot f.rows with
        | none => simp only [hasc] at h; cases h
        | some sel2 =>
          simp only [hasc] at h
          injection h with h
          injection h with h
          injection h with h1 h2
          rw [← h1, ← h2]
          exact ⟨ascendLT_sublist pivot f.rows sel2 hasc,
            indexerIndex_state f.indexer lt pivot i2 hidx⟩
    | some ge =>
      rw [hlt, hge] at h
      cases hidx : indexerIndex f.indexer ge with
      | error e => simp only [hidx] at h; cases h
      | ok p =>
        obtain ⟨b, i1⟩ := p
        simp only [hidx] at h
        cases hidx2 : indexerIndex i1 lt with
        | error e => simp only [hidx2] at h; cases h
        | ok p2 =>
          obtain ⟨eidx, i2⟩ := p2
          simp only [hidx2] at h
          cases hasc : ascendGE b f.rows with
          | none => simp only [hasc] at h; cases h
          | some suffix =>
            simp only [hasc] at h
            cases hasc2 : ascendLT eidx suffix with
            | none => simp only [hasc2] at h; cases h
            | some sel2 =>
              simp only [hasc2] at h
              injection h with h
              injection h with h
              injection h with h1 h2
              rw [← h1, ← h2]
              refine ⟨(ascendLT_sublist eidx suffix sel2 hasc2).trans
                (ascendGE_sublist b f.rows suffix hasc), ?_⟩
              rw [indexerIndex_state i1 lt eidx i2 hidx2,
                indexerIndex_state f.indexer ge b i1 hidx]

/-- Deleting one key from a sorted, uniformly shaped tree removes
exactly the entries with that key. -/
theorem delList_sorted : ∀ (rows : List GoRow) (k : GoIndex) (s : Shape),
    rowsShaped s rows → sortedRows rows → shapeOf k = some s →
    ∃ res, delList k rows =
      some (res, rows.filter (fun r => !(decide (r.index = k))))
  | [], k, s, _, _, _ => ⟨none, by rw [delList]; rfl⟩
  | x :: xs, k, s, hsh, hsort, hk => by
      have hx : shapeOf x.index = some s := hsh x (List.mem_cons_self x xs)
      have hsh' : rowsShaped s xs := fun r hr =>
        hsh r (List.mem_cons_of_mem x hr)
      have hhead : ∀ y ∈ xs, ltK x.index y.index :=
        (List.pairwise_cons.mp hsort).1
      have hsort' : sortedRows xs := (List.pairwise_cons.mp hsort).2
      obtain ⟨u, hu⟩ := lessGo_total k x.index s hk hx
      cases u with
      | true =>
        refine ⟨none, ?_⟩
        rw [delList, hu]
        have hall : ∀ r ∈ x :: xs, (!(decide (r.index = k))) = true := by
          intro r hr
          simp only [Bool.not_eq_true', decide_eq_false_iff_not]
          rcases List.mem_cons.mp hr with rfl | hr2
          · exact fun he => ne_of_ltK hk hu he.symm
          · intro he
            have hky : lessGo k r.index = some true :=
              lessGo_trans k x.index r.index s hk hx
                (hsh' r hr2) hu (hhead r hr2)
            exact ne_of_ltK hk hky he.symm
        rw [List.filter_eq_self.mpr hall]
      | false =>
        obtain ⟨v, hv⟩ := lessGo_total x.index k s hx hk
        cases v with
        | true =>
          obtain ⟨res, hrec⟩ := delList_sorted xs k s hsh' hsort' hk
          refine ⟨res, ?_⟩
          simp only [delList, hu, hv, hrec]
          have hxk : (!(decide (x.index = k))) = true := by
            simp only [Bool.not_eq_true', decide_eq_false_iff_not]
            exact ne_of_ltK hx hv
          rw [List.filter_cons, hxk]
          rfl
        | false =>
          have hxeq : x.index = k := lessGo_conn x.index k s hx hk hv hu
          refine ⟨some x.data, ?_⟩
          simp only [delList, hu, hv]
          have hxk : (!(decide (x.index = k))) = false := by
            simp [hxeq]
          rw [List.filter_cons, hxk]
          have hall : ∀ r ∈ xs, (!(decide (r.index = k))) = true := by
            intro r hr
            simp only [Bool.not_eq_true', decide_eq_false_iff_not]
            intro he
            have h2 : lessGo x.index r.index = some true := hhead r hr
            rw [hxeq, he] at h2
            rw [lessGo_irrefl k s hk] at h2
            cases h2
          rw [List.filter_eq_self.mpr hall]
          rfl

theorem rowsShaped_filter {s : Shape} {rows : List GoRow}
    (h : rowsShaped s rows) (p : GoRow → Bool) :
    rowsShaped s (rows.filter p) :=
  fun r hr => h r (List.mem_of_mem_filter hr)

theorem sortedRows_filter {rows : List GoRow} (h : sortedRows rows)
    (p : GoRow → Bool) : sortedRows (rows.filter p) :=
  List.Pairwise.sublist (List.filter_sublist rows) h

/-- Phase two of `PopRange`: deleting the selected keys removes exactly
the entries carrying one of them. -/
theorem delListAll_filter : ∀ (ks : List GoIndex) (rows : List GoRow)
    (s : Shape), rowsShaped s rows → sortedRows rows →
    (∀ k ∈ ks, shapeOf k = some s) →
    delListAll ks rows =
      some (rows.filter (fun r => decide (r.index ∉ ks)))
  | [], rows, s, _, _, _ => by
      rw [delListAll]
      have hall : ∀ r ∈ rows,
          decide (r.index ∉ ([] : List GoIndex)) = true := by
        intro r hr
        simp
      rw [List.filter_eq_self.mpr hall]
  | k :: ks, rows, s, hsh, hsort, hks => by
      have hk : shapeOf k = some s := hks k (List.mem_cons_self k ks)
      obtain ⟨res, hdel⟩ := delList_sorted rows k s hsh hsort hk
      simp only [delListAll, hdel]
      have hrec := delListAll_filter ks
        (rows.filter (fun r => !(decide (r.index = k)))) s
        (rowsShaped_filter hsh _) (sortedRows_filter hsort _)
        (fun k2 hk2 => hks k2 (List.mem_cons_of_mem k hk2))
      rw [hrec, List.filter_filter]
      have hpred : (fun a : GoRow =>
          decide (a.index ∉ ks) && !(decide (a.index = k))) =
          (fun r : GoRow => decide (r.index ∉ k :: ks)) := by
        funext r
        by_cases h1 : r.index = k
        · simp [h1]
        · by_cases h2 : r.index ∈ ks <;> simp [h1, h2]
      rw [hpred]

/-- C5 counterexample: on the reachable zero-column-indexer frame
holding one `NoKey` row, `PopRange` with no bounds succeeds and returns
the selected row's data, yet the selected entry is NOT removed from the
tree: `NullIndex` compares less than every key including itself, so the
delete pass's find misses and the tree comes back unchanged — refuting
the unrestricted "removing every selected entry" claim. -/
theorem C5_counterexample :
    popRangeGo ⟨[⟨.null, [("a", .int 0)]⟩], .column [] []⟩
        ⟨none, none⟩ =
      some (.ok [[("a", .int 0)]],
        ⟨[⟨.null, [("a", .int 0)]⟩], .column [] []⟩) ∧
    delList .null [⟨.null, [("a", .int 0)]⟩] =
      some (none, [⟨.null, [("a", .int 0)]⟩]) := by
  constructor
  · simp [popRangeGo, forRangeGo, selectRows, runActions, delListAll,
      delList, lessGo_null]
  · rw [delList, lessGo_null]

/-- C5 (amended): on frames whose stored keys are null-free and of one
common shape, `PopRange` removes the selected entries as a two-phase
batch: the selection is computed first, against the untouched tree (it
equals what `GetRange` returns on the same bounds), and only then are
the selected keys deleted; on any error the selection aborts and
nothing at all is deleted — in particular the entries not yet visited
all remain. (The restriction is forced: on a `NoKey`-keyed frame the
delete pass never finds the key, so the selected entries are returned
but not removed — see the counterexample.) -/
theorem C5_popRange_two_phase (f : GoFrame) (opts : RangeOpts) (s : Shape)
    (hsh : rowsShaped s f.rows) (hsort : sortedRows f.rows) :
    (∀ ds f', popRangeGo f opts = some (.ok ds, f') →
      ∃ sel : List GoRow, sel.Sublist f.rows ∧
        ds = sel.map (·.data) ∧
        getRangeGo f opts = some (.ok (sel.map (·.data), f.indexer)) ∧
        f'.rows = f.rows.filter
          (fun r => decide (r.index ∉ sel.map (·.index)))) ∧
    (∀ e f', popRangeGo f opts = some (.error e, f') →
      f'.rows = f.rows) := by
  constructor
  · intro ds f' hpop
    rw [popRangeGo] at hpop
    cases hfr : forRangeGo f opts (fun r => (.ok r : Except GoErr GoRow)) with
    | none => rw [hfr] at hpop; cases hpop
    | some r =>
      cases r with
      | error e =>
        simp only [hfr] at hpop
        injection hpop with hpop
        injection hpop with h1 h2
        cases h1
      | ok t =>
        obtain ⟨sel, e?, i'⟩ := t
        cases e? with
        | some e =>
          simp only [hfr] at hpop
          injection hpop with hpop
          injection hpop with h1 h2
          cases h1
        | none =>
          simp only [hfr] at hpop
          rw [forRangeGo] at hfr
          cases hsel : selectRows f opts with
          | none => rw [hsel] at hfr; cases hfr
          | some rsel =>
            cases rsel with
            | error e => simp only [hsel] at hfr; cases hfr
            | ok p =>
              obtain ⟨sel0, i0⟩ := p
              simp only [hsel, runActions_id sel0] at hfr
              injection hfr with hfr
              injection hfr with hfr
              injection hfr with hs1 hfr
              injection hfr with hs2 hs3
              have hs1' := hs1.symm
              have hs3' := hs3.symm
              subst hs1'; subst hs3'
              obtain ⟨hsub, hio⟩ := selectRows_spec f opts sel i' hsel
              have hksh : ∀ k ∈ sel.map (·.index), shapeOf k = some s := by
                intro k hk
                obtain ⟨r, hr, rfl⟩ := List.mem_map.mp hk
                exact hsh r (hsub.mem hr)
              have hda := delListAll_filter (sel.map (·.index)) f.rows s
                hsh hsort hksh
              rw [hda] at hpop
              injection hpop with hpop
              injection hpop with h1 h2
              injection h1 with h1
              refine ⟨sel, hsub, h1.symm, ?_, by rw [← h2]⟩
              simp only [getRangeGo, forRangeGo, hsel,
                runActions_data sel, hio]
  · intro e f' hpop
    rw [popRangeGo] at hpop
    cases hfr : forRangeGo f opts (fun r => (.ok r : Except GoErr GoRow)) with
    | none => rw [hfr] at hpop; cases hpop
    | some r =>
      cases r with
      | error e2 =>
        simp only [hfr] at hpop
        injection hpop with hpop
        injection hpop with h1 h2
        rw [← h2]
      | ok t =>
        obtain ⟨sel, e?, i'⟩ := t
        cases e? with
        | some e2 =>
          simp only [hfr] at hpop
          injection hpop with hpop
          injection hpop with h1 h2
          rw [← h2]
        | none =>
          simp only [hfr] at hpop
          cases hda : delListAll (sel.map (·.index)) f.rows with
          | none => rw [hda] at hpop; cases hpop
          | some rows' =>
            rw [hda] at hpop
            injection hpop with hpop
            injection hpop with h1 h2
            cases h1

/-- Witness for C5 at a concrete one-row frame with no bounds: the row
is selected first and then deleted. -/
theorem C5_popRange_two_phase_witness :
    ∃ sel : List GoRow,
      sel.Sublist [⟨.int 1, [("i", .int 1)]⟩] ∧
      [[("i", GoValue.int 1)]] = sel.map (·.data) ∧
      getRangeGo ⟨[⟨.int 1, [("i", .int 1)]⟩], .column ["i"] []⟩
          ⟨none, none⟩ =
        some (.ok (sel.map (·.data), .column ["i"] [])) ∧
      (⟨[], .column ["i"] []⟩ : GoFrame).rows =
        [(⟨.int 1, [("i", .int 1)]⟩ : GoRow)].filter
          (fun r => decide (r.index ∉ sel.map (·.index))) :=
  (C5_popRange_two_phase
    ⟨[⟨.int 1, [("i", .int 1)]⟩], .column ["i"] []⟩ ⟨none, none⟩ .int
    (by
      intro r hr
      rw [List.mem_singleton] at hr
      subst hr
      rw [shapeOf])
    (by
      simp [sortedRows])).1
    [[("i", .int 1)]] ⟨[], .column ["i"] []⟩
    (by
      simp [popRangeGo, forRangeGo, selectRows, runActions, delListAll,
        delList, lessGo_int_int])

/-- Go map assignment `data[col] = val`: replace the entry if present,
else add it. -/
def dataSet (d : Data) (c : String) (v : GoValue) : Data :=
  match d with
  | [] => [(c, v)]
  | (c', v') :: rest =>
    if c' = c then (c, v) :: rest else (c', v') :: dataSet rest c v

/-- `btree.Get` returning the stored entry itself (as `Frame.GroupBy`
uses it). -/
def getListEntry (k : GoIndex) : List GoRow → Option (Option GoRow)
  | [] => some none
  | x :: xs =>
    match lessGo k x.index with
    | none => none
    | some true => some none
    | some false =>
      match lessGo x.index k with
      | none => none
      | some true => getListEntry k xs
      | some false => some (some x)

theorem getList_eq_entry : ∀ (k : GoIndex) (rows : List GoRow),
    getList k rows =
      (getListEntry k rows).map (fun o => o.map (·.data))
  | k, [] => by rw [getList, getListEntry]; rfl
  | k, x :: xs => by
      rw [getList, getListEntry]
      cases lessGo k x.index with
      | none => rfl
      | some u =>
        cases u with
        | true => rfl
        | false =>
          cases lessGo x.index k with
          | none => rfl
          | some v =>
            cases v with
            | true => exact getList_eq_entry k xs
            | false => rfl

theorem getListEntry_found_mem : ∀ (k : GoIndex) (rows : List GoRow)
    (x : GoRow), getListEntry k rows = some (some x) → x ∈ rows
  | k, [], x, h => by rw [getListEntry] at h; injection h with h; cases h
  | k, y :: ys, x, h => by
      rw [getListEntry] at h
      cases hc : lessGo k y.index with
      | none => simp only [hc] at h; cases h
      | some u =>
        simp only [hc] at h
        cases u with
        | true => injection h with h; cases h
        | false =>
          cases hc2 : lessGo y.index k with
          | none => simp only [hc2] at h; cases h
          | some v =>
            simp only [hc2] at h
            cases v with
            | true =>
              exact List.mem_cons_of_mem y
                (getListEntry_found_mem k ys x h)
            | false =>
              injection h with h
              injection h with h
              exact h ▸ List.mem_cons_self y ys

theorem getListEntry_found_key : ∀ (k : GoIndex) (rows : List GoRow)
    (x : GoRow) (s : Shape), rowsShaped s rows → shapeOf k = some s →
    getListEntry k rows = some (some x) → x.index = k
  | k, [], x, s, _, _, h => by
      rw [getListEntry] at h; injection h with h; cases h
  | k, y :: ys, x, s, hsh, hk, h => by
      rw [getListEntry] at h
      cases hc : lessGo k y.index with
      | none => simp only [hc] at h; cases h
      | some u =>
        simp only [hc] at h
        cases u with
        | true => injection h with h; cases h
        | false =>
          cases hc2 : lessGo y.index k with
          | none => simp only [hc2] at h; cases h
          | some v =>
            simp only [hc2] at h
            cases v with
            | true =>
              exact getListEntry_found_key k ys x s
                (fun r hr => hsh r (List.mem_cons_of_mem y hr)) hk h
            | false =>
              injection h with h
              injection h with h
              rw [← h]
              exact lessGo_conn y.index k s
                (hsh y (List.mem_cons_self y ys)) hk hc2 hc

/-- Every entry after an insert is the new row or one of the old
rows. -/
theorem putList_mem : ∀ (rows : List GoRow) (r : GoRow)
    (prev : Option Data) (rows' : List GoRow),
    putList r rows = some (prev, rows') →
    ∀ y ∈ rows', y = r ∨ y ∈ rows
  | [], r, prev, rows', h, y, hy => by
      rw [putList] at h
      injection h with h
      injection h with h1 h2
      rw [← h2] at hy
      rcases List.mem_singleton.mp hy with rfl
      exact .inl rfl
  | x :: xs, r, prev, rows', h, y, hy => by
      rw [putList] at h
      cases hc : lessGo r.index x.index with
      | none => simp only [hc] at h; cases h
      | some u =>
        simp only [hc] at h
        cases u with
        | true =>
          injection h with h
          injection h with h1 h2
          rw [← h2] at hy
          rcases List.mem_cons.mp hy with rfl | hy2
          · exact .inl rfl
          · exact .inr hy2
        | false =>
          cases hc2 : lessGo x.index r.index with
          | none => simp only [hc2] at h; cases h
          | some v =>
            simp only [hc2] at h
            cases v with
            | false =>
              injection h with h
              injection h with h1 h2
              rw [← h2] at hy
              rcases List.mem_cons.mp hy with rfl | hy2
              · exact .inl rfl
              · exact .inr (List.mem_cons_of_mem x hy2)
            | true =>
              cases hrec : putList r xs with
              | none => simp only [hrec] at h; cases h
              | some p =>
                obtain ⟨prev2, ys⟩ := p
                simp only [hrec] at h
                injection h with h
                injection h with h1 h2
                rw [← h2] at hy
                rcases List.mem_cons.mp hy with rfl | hy2
                · exact .inr (List.mem_cons_self y xs)
                · rcases putList_mem xs r prev2 ys hrec y hy2 with h3 | h3
                  · exact .inl h3
                  · exact .inr (List.mem_cons_of_mem x h3)

/-- Lookup after insert, for same-shape keys: the inserted key now maps
to the new data and every other key is unaffected. -/
theorem getList_putList : ∀ (rows : List GoRow) (k q : GoIndex) (d : Data)
    (s : Shape), rowsShaped s rows → shapeOf k = some s →
    shapeOf q = some s →
    ∀ (prev : Option Data) (rows' : List GoRow),
    putList ⟨k, d⟩ rows = some (prev, rows') →
    getList q rows' = if q = k then some (some d) else getList q rows
  | [], k, q, d, s, _, hk, hq, prev, rows', h => by
      rw [putList] at h
      injection h with h
      injection h with h1 h2
      rw [← h2]
      by_cases hqk : q = k
      · subst hqk
        rw [if_pos rfl, getList, lessGo_irrefl q s hq]
      · rw [if_neg hqk, getList, getList]
        obtain ⟨u, hu⟩ := lessGo_total q k s hq hk
        cases u with
        | true => rw [hu]
        | false =>
          obtain ⟨v, hv⟩ := lessGo_total k q s hk hq
          cases v with
          | true => rw [hu, hv, getList]
          | false => exact absurd (lessGo_conn q k s hq hk hu hv) hqk
  | x :: xs, k, q, d, s, hsh, hk, hq, prev, rows', h => by
      have hx : shapeOf x.index = some s := hsh x (List.mem_cons_self x xs)
      have hsh' : rowsShaped s xs := fun r hr =>
        hsh r (List.mem_cons_of_mem x hr)
      rw [putList] at h
      cases hkx : lessGo k x.index with
      | none => simp only [hkx] at h; cases h
      | some u =>
        simp only [hkx] at h
        cases u with
        | true =>
          injection h with h
          injection h with h1 h2
          rw [← h2]
          by_cases hqk : q = k
          · subst hqk
            rw [if_pos rfl, getList, lessGo_irrefl q s hq]
          · rw [if_neg hqk, getList]
            obtain ⟨u2, hu2⟩ := lessGo_total q k s hq hk
            cases u2 with
            | true =>
              rw [hu2, getList]
              have hqx : lessGo q x.index = some true :=
                lessGo_trans q k x.index s hq hk hx hu2 hkx
              rw [hqx]
            | false =>
              obtain ⟨v2, hv2⟩ := lessGo_total k q s hk hq
              cases v2 with
              | true => rw [hu2, hv2]
              | false => exact absurd (lessGo_conn q k s hq hk hu2 hv2) hqk
        | false =>
          cases hxk : lessGo x.index k with
          | none => simp only [hxk] at h; cases h
          | some v =>
            simp only [hxk] at h
            cases v with
            | true =>
              cases hrec : putList ⟨k, d⟩ xs with
              | none => simp only [hrec] at h; cases h
              | some p =>
                obtain ⟨prev2, ys⟩ := p
                simp only [hrec] at h
                injection h with h
                injection h with h1 h2
                rw [← h2]
                have ih := getList_putList xs k q d s hsh' hk hq prev2 ys hrec
                obtain ⟨u2, hu2⟩ := lessGo_total q x.index s hq hx
                cases u2 with
                | true =>
                  by_cases hqk : q = k
                  · subst hqk
                    exact absurd
                      (lessGo_trans q x.index q s hq hx hq hu2 hxk)
                      (by rw [lessGo_irrefl q s hq]; intro hcon; cases hcon)
                  · rw [if_neg hqk, getList, hu2, getList, hu2]
                | false =>
                  obtain ⟨v2, hv2⟩ := lessGo_total x.index q s hx hq
                  cases v2 with
                  | true =>
                    rw [getList, hu2, hv2, ih]
                    by_cases hqk : q = k
                    · simp only [if_pos hqk]
                    · simp only [if_neg hqk]
                      rw [show getList q (x :: xs) = getList q xs by
                        rw [getList, hu2, hv2]]
                  | false =>
                    have hxq : x.index = q :=
                      lessGo_conn x.index q s hx hq hv2 hu2
                    by_cases hqk : q = k
                    · subst hqk
                      rw [hxq] at hxk
                      rw [lessGo_irrefl q s hq] at hxk
                      cases hxk
                    · rw [if_neg hqk, getList, hu2, hv2, getList, hu2, hv2]
            | false =>
              have hxeq : x.index = k := lessGo_conn x.index k s hx hk hxk hkx
              injection h with h
              injection h with h1 h2
              rw [← h2]
              by_cases hqk : q = k
              · subst hqk
                rw [if_pos rfl, getList, lessGo_irrefl q s hq]
              · rw [if_neg hqk, getList, getList, hxeq]
                obtain ⟨u2, hu2⟩ := lessGo_total q k s hq hk
                cases u2 with
                | true => rw [hu2]
                | false =>
                  obtain ⟨v2, hv2⟩ := lessGo_total k q s hk hq
                  cases v2 with
                  | true => rw [hu2, hv2]
                  | false => exact absurd (lessGo_conn q k s hq hk hu2 hv2) hqk

/-- Insert keeps the tree sorted and uniformly shaped. -/
theorem putList_sorted : ∀ (rows : List GoRow) (k : GoIndex) (d : Data)
    (s : Shape), rowsShaped s rows → sortedRows rows →
    shapeOf k = some s →
    ∀ (prev : Option Data) (rows' : List GoRow),
    putList ⟨k, d⟩ rows = some (prev, rows') →
    rowsShaped s rows' ∧ sortedRows rows'
  | [], k, d, s, _, _, hk, prev, rows', h => by
      rw [putList] at h
      injection h with h
      injection h with h1 h2
      rw [← h2]
      constructor
      · intro r hr
        rcases List.mem_singleton.mp hr with rfl
        exact hk
      · exact List.pairwise_singleton _ _
  | x :: xs, k, d, s, hsh, hsort, hk, prev, rows', h => by
      have hx : shapeOf x.index = some s := hsh x (List.mem_cons_self x xs)
      have hsh' : rowsShaped s xs := fun r hr =>
        hsh r (List.mem_cons_of_mem x hr)
      have hhead : ∀ y ∈ xs, ltK x.index y.index :=
        (List.pairwise_cons.mp hsort).1
      have hsort' : sortedRows xs := (List.pairwise_cons.mp hsort).2
      rw [putList] at h
      cases hkx : lessGo k x.index with
      | none => simp only [hkx] at h; cases h
      | some u =>
        simp only [hkx] at h
        cases u with
        | true =>
          injection h with h
          injection h with h1 h2
          rw [← h2]
          refine ⟨?_, ?_⟩
          · intro r hr
            rcases List.mem_cons.mp hr with rfl | hr2
            · exact hk
            · exact hsh r hr2
          · refine List.pairwise_cons.mpr ⟨?_, hsort⟩
            intro y hy
            rcases List.mem_cons.mp hy with rfl | hy2
            · exact hkx
            · exact lessGo_trans k x.index y.index s hk hx
                (hsh' y hy2) hkx (hhead y hy2)
        | false =>
          cases hxk : lessGo x.index k with
          | none => simp only [hxk] at h; cases h
          | some v =>
            simp only [hxk] at h
            cases v with
            | true =>
              cases hrec : putList ⟨k, d⟩ xs with
              | none => simp only [hrec] at h; cases h
              | some p =>
                obtain ⟨prev2, ys⟩ := p
                simp only [hrec] at h
                injection h with h
                injection h with h1 h2
                rw [← h2]
                obtain ⟨hysh, hysort⟩ :=
                  putList_sorted xs k d s hsh' hsort' hk prev2 ys hrec
                refine ⟨?_, ?_⟩
                · intro r hr
                  rcases List.mem_cons.mp hr with rfl | hr2
                  · exact hx
                  · exact hysh r hr2
                · refine List.pairwise_cons.mpr ⟨?_, hysort⟩
                  intro y hy
                  rcases putList_mem xs ⟨k, d⟩ prev2 ys hrec y hy with
                    rfl | hy2
                  · exact hxk
                  · exact hhead y hy2
            | false =>
              have hxeq : x.index = k := lessGo_conn x.index k s hx hk hxk hkx
              injection h with h
              injection h with h1 h2
              rw [← h2]
              refine ⟨?_, ?_⟩
              · intro r hr
                rcases List.mem_cons.mp hr with rfl | hr2
                · exact hk
                · exact hsh' r hr2
              · refine List.pairwise_cons.mpr ⟨?_, hsort'⟩
                intro y hy
                have := hhead y hy
                rw [hxeq] at this
                exact this

/-- In a sorted same-shape tree entries to the right of a same-key
entry never repeat the key: after an insert every entry is the new row
or an old row with a different key. -/
theorem putList_mem_strong : ∀ (rows : List GoRow) (k : GoIndex)
    (d : Data) (s : Shape), rowsShaped s rows → sortedRows rows →
    shapeOf k = some s →
    ∀ (prev : Option Data) (rows' : List GoRow),
    putList ⟨k, d⟩ rows = some (prev, rows') →
    ∀ y ∈ rows', y = ⟨k, d⟩ ∨ (y ∈ rows ∧ y.index ≠ k)
  | [], k, d, s, _, _, hk, prev, rows', h, y, hy => by
      rw [putList] at h
      injection h with h
      injection h with h1 h2
      rw [← h2] at hy
      rcases List.mem_singleton.mp hy with rfl
      exact .inl rfl
  | x :: xs, k, d, s, hsh, hsort, hk, prev, rows', h, y, hy => by
      have hx : shapeOf x.index = some s := hsh x (List.mem_cons_self x xs)
      have hsh' : rowsShaped s xs := fun r hr =>
        hsh r (List.mem_cons_of_mem x hr)
      have hhead : ∀ z ∈ xs, ltK x.index z.index :=
        (List.pairwise_cons.mp hsort).1
      have hsort' : sortedRows xs := (List.pairwise_cons.mp hsort).2
      rw [putList] at h
      cases hkx : lessGo k x.index with
      | none => simp only [hkx] at h; cases h
      | some u =>
        simp only [hkx] at h
        cases u with
        | true =>
          injection h with h
          injection h with h1 h2
          rw [← h2] at hy
          rcases List.mem_cons.mp hy with rfl | hy2
          · exact .inl rfl
          · refine .inr ⟨hy2, ?_⟩
            rcases List.mem_cons.mp hy2 with rfl | hy3
            · exact fun he => ne_of_ltK hk hkx he.symm
            · intro he
              have : lessGo k y.index = some true :=
                lessGo_trans k x.index y.index s hk hx
                  (hsh' y hy3) hkx (hhead y hy3)
              exact ne_of_ltK hk this he.symm
        | false =>
          cases hxk : lessGo x.index k with
          | none => simp only [hxk] at h; cases h
          | some v =>
            simp only [hxk] at h
            cases v with
            | true =>
              cases hrec : putList ⟨k, d⟩ xs with
              | none => simp only [hrec] at h; cases h
              | some p =>
                obtain ⟨prev2, ys⟩ := p
                simp only [hrec] at h
                injection h with h
                injection h with h1 h2
                rw [← h2] at hy
                rcases List.mem_cons.mp hy with rfl | hy2
                · exact .inr ⟨List.mem_cons_self y xs,
                    fun he => ne_of_ltK hx hxk he⟩
                · rcases putList_mem_strong xs k d s hsh' hsort' hk
                    prev2 ys hrec y hy2 with h3 | ⟨h3, h4⟩
                  · exact .inl h3
                  · exact .inr ⟨List.mem_cons_of_mem x h3, h4⟩
            | false =>
              have hxeq : x.index = k := lessGo_conn x.index k s hx hk hxk hkx
              injection h with h
              injection h with h1 h2
              rw [← h2] at hy
              rcases List.mem_cons.mp hy with rfl | hy2
              · exact .inl rfl
              · refine .inr ⟨List.mem_cons_of_mem x hy2, ?_⟩
                intro he
                have h5 : lessGo x.index y.index = some true := hhead y hy2
                rw [hxeq, he] at h5
                rw [lessGo_irrefl k s hk] at h5
                cases h5

/-- Sorted same-shape trees have pairwise distinct keys. -/
theorem sorted_keys_nodup {rows : List GoRow} {s : Shape}
    (hsh : rowsShaped s rows) (hsort : sortedRows rows) :
    (rows.map (·.index)).Nodup := by
  have h2 : rows.Pairwise (fun a b => a.index ≠ b.index) := by
    refine hsort.imp_of_mem ?_
    intro a b ha hb hr
    exact ne_of_ltK (hsh a ha) hr
  exact List.pairwise_map.mpr h2

/-- `Frame.GroupBy`'s loop body (src/unnamed/part_001 lines 343-367)
folded over the source rows in ascending order: index the row by the
grouping indexer (stopping with the error on failure), fetch the
existing result entry at that key or start one with an empty `Group`
column, append the row's data to the group, and re-insert. -/
def groupByGoAux (idxr : GoIndexer) (src : List GoRow)
    (acc : List GoRow) : Option (List GoRow × GoIndexer × Option GoErr) :=
  match src with
  | [] => some (acc, idxr, none)
  | r :: rest =>
    match indexerIndex idxr r.data with
    | .error e => some (acc, idxr, some e)
    | .ok (k, idxr') =>
      match getListEntry k acc with
      | none => none
      | some found =>
        let existingRow : GoRow :=
          match found with
          | some er => er
          | none => ⟨k, [(groupColumn, .group [])]⟩
        let existingGroup : List Data :=
          match dataGet existingRow.data groupColumn with
          | some (.group g) => g
          | _ => []
        match putList ⟨existingRow.index,
            dataSet existingRow.data groupColumn
              (.group (existingGroup ++ [r.data]))⟩ acc with
        | none => none
        | some (_, acc') => groupByGoAux idxr' rest acc'

/-- `Frame.GroupBy` (src/unnamed/part_001 lines 340-372): fold the loop
over the rows in ascending order starting from an empty result tree;
the result frame is indexed by the `group.Indexer` wrapper and is
returned together with the loop's error, if any. -/
def groupByGo (f : GoFrame) (idxr : GoIndexer) :
    Option (GoFrame × Option GoErr) :=
  match groupByGoAux idxr f.rows [] with
  | none => none
  | some (rows', idxr', e) => some (⟨rows', .groupIdx idxr'⟩, e)

/-- The rows of the processed prefix that carry a given grouping key,
in visitation order. -/
def groupFor (k : GoIndex) (pairs : List (Data × GoIndex)) : List Data :=
  (pairs.filter (fun p => decide (p.2 = k))).map Prod.fst

theorem groupFor_append (k : GoIndex) (P : List (Data × GoIndex))
    (d : Data) (k2 : GoIndex) :
    groupFor k (P ++ [(d, k2)]) =
      groupFor k P ++ (if k2 = k then [d] else []) := by
  unfold groupFor
  rw [List.filter_append, List.map_append]
  by_cases h : k2 = k <;> simp [h]

theorem groupFor_of_not_mem (k : GoIndex) (P : List (Data × GoIndex))
    (h : k ∉ P.map Prod.snd) : groupFor k P = [] := by
  unfold groupFor
  have : P.filter (fun p => decide (p.2 = k)) = [] := by
    rw [List.filter_eq_nil_iff]
    intro p hp
    simp only [decide_eq_true_eq]
    intro he
    exact h (List.mem_map.mpr ⟨p, hp, he⟩)
  rw [this]
  rfl

/-- Insert always succeeds on a same-shape tree. -/
theorem putList_total : ∀ (rows : List GoRow) (k : GoIndex) (d : Data)
    (s : Shape), rowsShaped s rows → shapeOf k = some s →
    ∃ res, putList ⟨k, d⟩ rows = some res
  | [], k, d, s, _, _ => ⟨(none, [⟨k, d⟩]), by rw [putList]⟩
  | x :: xs, k, d, s, hsh, hk => by
      have hx : shapeOf x.index = some s := hsh x (List.mem_cons_self x xs)
      obtain ⟨u, hu⟩ := lessGo_total k x.index s hk hx
      cases u with
      | true => exact ⟨(none, ⟨k, d⟩ :: x :: xs), by rw [putList, hu]⟩
      | false =>
        obtain ⟨v, hv⟩ := lessGo_total x.index k s hx hk
        cases v with
        | false =>
          exact ⟨(some x.data, ⟨k, d⟩ :: xs), by rw [putList, hu, hv]⟩
        | true =>
          obtain ⟨⟨prev, ys⟩, hrec⟩ := putList_total xs k d s
            (fun r hr => hsh r (List.mem_cons_of_mem x hr)) hk
          exact ⟨(prev, x :: ys), by rw [putList, hu, hv, hrec]⟩

/-- The invariant of the group-by fold: the accumulator tree is sorted
and uniformly shaped, and holds exactly one entry per distinct key of
the processed prefix, whose single `Group` column lists the prefix rows
with that key in visitation order. -/
def groupInv (s : Shape) (P : List (Data × GoIndex))
    (acc : List GoRow) : Prop :=
  rowsShaped s acc ∧ sortedRows acc ∧
  (∀ q, shapeOf q = some s →
    getList q acc = some (if q ∈ P.map Prod.snd
      then some [(groupColumn, .group (groupFor q P))] else none)) ∧
  (∀ r ∈ acc, r.index ∈ P.map Prod.snd ∧
    r.data = [(groupColumn, .group (groupFor r.index P))])

theorem groupInv_nil (s : Shape) : groupInv s [] [] := by
  refine ⟨fun r hr => absurd hr (List.not_mem_nil r), List.Pairwise.nil,
    ?_, fun r hr => absurd hr (List.not_mem_nil r)⟩
  intro q hq
  rw [getList]
  simp

/-- One step of the group-by fold preserves the invariant. -/
theorem groupInv_step (s : Shape) (P : List (Data × GoIndex))
    (acc : List GoRow) (k : GoIndex) (d : Data)
    (hinv : groupInv s P acc) (hk : shapeOf k = some s)
    (prev : Option Data) (acc' : List GoRow)
    (hpl : putList ⟨k, [(groupColumn,
      .group (groupFor k P ++ [d]))]⟩ acc = some (prev, acc')) :
    groupInv s (P ++ [(d, k)]) acc' := by
  obtain ⟨hsh, hsort, hlook, hmem⟩ := hinv
  obtain ⟨hsh', hsort'⟩ := putList_sorted acc k
    [(groupColumn, .group (groupFor k P ++ [d]))] s hsh hsort hk prev
    acc' hpl
  refine ⟨hsh', hsort', ?_, ?_⟩
  · intro q hq
    rw [getList_putList acc k q _ s hsh hk hq prev acc' hpl]
    by_cases hqk : q = k
    · subst hqk
      rw [if_pos rfl, if_pos (by simp)]
      rw [groupFor_append]
      simp
    · rw [if_neg hqk, hlook q hq]
      have hgf : groupFor q (P ++ [(d, k)]) = groupFor q P := by
        rw [groupFor_append, if_neg (Ne.symm hqk), List.append_nil]
      by_cases hqP : q ∈ P.map Prod.snd
      · rw [if_pos hqP, if_pos (by
          simp only [List.map_append, List.mem_append]
          exact .inl hqP), hgf]
      · have hnot : q ∉ (P ++ [(d, k)]).map Prod.snd := by
          simp only [List.map_append, List.mem_append]
          rintro (h | h)
          · exact hqP h
          · simp at h
            exact hqk h
        rw [if_neg hqP, if_neg hnot]
  · intro r hr
    rcases putList_mem_strong acc k _ s hsh hsort hk prev acc' hpl r hr
      with rfl | ⟨hrmem, hrne⟩
    · constructor
      · simp
      · simp only
        rw [groupFor_append]
        simp
    · obtain ⟨h1, h2⟩ := hmem r hrmem
      constructor
      · simp only [List.map_append, List.mem_append]
        exact .inl h1
      · rw [h2, groupFor_append]
        simp [Ne.symm hrne]

/-- Folding the group-by loop over source rows that all index to keys of
one common shape succeeds with no error and preserves the invariant. -/
theorem groupByAux_inv (idxr : GoIndexer) (s : Shape) :
    ∀ (srcK : List (GoRow × GoIndex)) (P : List (Data × GoIndex))
      (acc : List GoRow),
    (∀ p ∈ srcK, indexerIndex idxr p.1.data = .ok (p.2, idxr) ∧
      shapeOf p.2 = some s) →
    groupInv s P acc →
    ∃ acc', groupByGoAux idxr (srcK.map Prod.fst) acc =
        some (acc', idxr, none) ∧
      groupInv s (P ++ srcK.map (fun p => (p.1.data, p.2))) acc'
  | [], P, acc, _, hinv => ⟨acc, by rw [List.map_nil, groupByGoAux], by
      rw [List.map_nil, List.append_nil]; exact hinv⟩
  | (r, k) :: rest, P, acc, hall, hinv => by
      obtain ⟨hidx, hk⟩ := hall (r, k) (List.mem_cons_self _ _)
      obtain ⟨hsh, hsort, hlook, hmem⟩ := hinv
      have hglk := hlook k hk
      rw [getList_eq_entry] at hglk
      by_cases hKP : k ∈ P.map Prod.snd
      · rw [if_pos hKP] at hglk
        cases hent : getListEntry k acc with
        | none => rw [hent, Option.map_none'] at hglk; cases hglk
        | some o =>
          rw [hent, Option.map_some'] at hglk
          injection hglk with hglk
          cases o with
          | none => rw [Option.map_none'] at hglk; cases hglk
          | some er =>
            rw [Option.map_some'] at hglk
            injection hglk with hdata
            have hik : er.index = k :=
              getListEntry_found_key k acc er s hsh hk hent
            have her : er =
                ⟨k, [(groupColumn, .group (groupFor k P))]⟩ := by
              cases er with
              | mk i dd => simp only at hik hdata; rw [hik, hdata]
            subst her
            obtain ⟨⟨prev, acc₁⟩, hpl⟩ := putList_total acc k
              [(groupColumn, .group (groupFor k P ++ [r.data]))] s hsh hk
            have hinv1 : groupInv s (P ++ [(r.data, k)]) acc₁ :=
              groupInv_step s P acc k r.data ⟨hsh, hsort, hlook, hmem⟩
                hk prev acc₁ hpl
            obtain ⟨acc', hrun, hinv2⟩ := groupByAux_inv idxr s rest
              (P ++ [(r.data, k)]) acc₁
              (fun p hp => hall p (List.mem_cons_of_mem _ hp)) hinv1
            refine ⟨acc', ?_, ?_⟩
            · have hdg : dataGet
                  [(groupColumn, GoValue.group (groupFor k P))]
                  groupColumn = some (.group (groupFor k P)) := by
                simp [dataGet]
              have hds : dataSet
                  [(groupColumn, GoValue.group (groupFor k P))]
                  groupColumn
                  (.group (groupFor k P ++ [r.data])) =
                  [(groupColumn,
                    GoValue.group (groupFor k P ++ [r.data]))] := by
                simp [dataSet]
              simp only [List.map_cons]
              rw [groupByGoAux]
              simp only [hidx, hent, hdg, hds, hpl]
              exact hrun
            · have heq : P ++ ((r, k) :: rest).map
                  (fun p => (p.1.data, p.2)) =
                  (P ++ [(r.data, k)]) ++ rest.map
                    (fun p => (p.1.data, p.2)) := by
                simp
              rw [heq]
              exact hinv2
      · rw [if_neg hKP] at hglk
        cases hent : getListEntry k acc with
        | none => rw [hent, Option.map_none'] at hglk; cases hglk
        | some o =>
          rw [hent, Option.map_some'] at hglk
          injection hglk with hglk
          cases o with
          | some er => rw [Option.map_some'] at hglk; cases hglk
          | none =>
            have hgf0 : groupFor k P = [] := groupFor_of_not_mem k P hKP
            obtain ⟨⟨prev, acc₁⟩, hpl⟩ := putList_total acc k
              [(groupColumn, .group [r.data])] s hsh hk
            have hpl' : putList ⟨k, [(groupColumn,
                .group (groupFor k P ++ [r.data]))]⟩ acc =
                some (prev, acc₁) := by
              rw [hgf0, List.nil_append]
              exact hpl
            have hinv1 : groupInv s (P ++ [(r.data, k)]) acc₁ :=
              groupInv_step s P acc k r.data ⟨hsh, hsort, hlook, hmem⟩
                hk prev acc₁ hpl'
            obtain ⟨acc', hrun, hinv2⟩ := groupByAux_inv idxr s rest
              (P ++ [(r.data, k)]) acc₁
              (fun p hp => hall p (List.mem_cons_of_mem _ hp)) hinv1
            refine ⟨acc', ?_, ?_⟩
            · have hdg : dataGet [(groupColumn, GoValue.group [])]
                  groupColumn = some (.group []) := by
                simp [dataGet]
              have hds : dataSet [(groupColumn, GoValue.group [])]
                  groupColumn (.group ([] ++ [r.data])) =
                  [(groupColumn, GoValue.group [r.data])] := by
                simp [dataSet]
              simp only [List.map_cons]
              rw [groupByGoAux]
              simp only [hidx, hent, hdg, hds, hpl]
              exact hrun
            · have heq : P ++ ((r, k) :: rest).map
                  (fun p => (p.1.data, p.2)) =
                  (P ++ [(r.data, k)]) ++ rest.map
                    (fun p => (p.1.data, p.2)) := by
                simp
              rw [heq]
              exact hinv2

/-- C9 counterexample: grouping the two-row frame built on column "i"
by a zero-column indexer succeeds with no error, yet produces TWO result
rows for the single distinct grouping key `NoKey` (each holding a
singleton group), because `NoKey` compares less than itself and so is
never found by the lookup that should have extended the group. -/
theorem C9_counterexample :
    groupByGo ⟨[⟨.int 0, [("i", .int 0)]⟩, ⟨.int 1, [("i", .int 1)]⟩],
        .column ["i"] []⟩ (.column [] []) =
      some (⟨[⟨.null, [(groupColumn, .group [[("i", .int 1)]])]⟩,
              ⟨.null, [(groupColumn, .group [[("i", .int 0)]])]⟩],
            .groupIdx (.column [] [])⟩, none) ∧
    (∀ y ∈ [(⟨.null, [(groupColumn, .group [[("i", .int 1)]])]⟩ : GoRow),
            ⟨.null, [(groupColumn, .group [[("i", .int 0)]])]⟩],
      y.index = .null) := by
  constructor
  · simp [groupByGo, groupByGoAux, indexerIndex, colIndexLoop,
      newIndexGo, toIndexVals, getListEntry, putList, lessGo_null,
      dataGet, dataSet, groupColumn]
  · intro y hy
    rcases List.mem_cons.mp hy with rfl | hy2
    · rfl
    · rcases List.mem_cons.mp hy2 with rfl | hy3
      · rfl
      · exact absurd hy3 (List.not_mem_nil y)

/-- C9 (amended): if every source row indexes successfully to a key of
one common non-null shape, GroupBy succeeds with no error and returns a
frame with exactly one row per distinct grouping key (its key list has
no duplicates and every grouping key is found by lookup), each result
row holding exactly one column — the synthetic "Group" column — whose
value lists the data of the source rows sharing that key in the
ascending visitation order of the source frame. -/
theorem C9_groupby_amended (f : GoFrame) (idxr : GoIndexer) (s : Shape)
    (keyOf : GoRow → GoIndex)
    (hall : ∀ r ∈ f.rows,
      (∃ i', indexerIndex idxr r.data = .ok (keyOf r, i')) ∧
      shapeOf (keyOf r) = some s) :
    ∃ rows', groupByGo f idxr = some (⟨rows', .groupIdx idxr⟩, none) ∧
      (rows'.map GoRow.index).Nodup ∧
      (∀ r ∈ f.rows, getList (keyOf r) rows' = some (some
        [(groupColumn, .group (groupFor (keyOf r)
          (f.rows.map (fun r0 => (r0.data, keyOf r0)))))])) ∧
      (∀ y ∈ rows', y.index ∈ f.rows.map keyOf ∧
        y.data = [(groupColumn, .group (groupFor y.index
          (f.rows.map (fun r0 => (r0.data, keyOf r0)))))]) := by
  have hall' : ∀ p ∈ f.rows.map (fun r => (r, keyOf r)),
      indexerIndex idxr p.1.data = .ok (p.2, idxr) ∧
      shapeOf p.2 = some s := by
    intro p hp
    obtain ⟨r, hr, rfl⟩ := List.mem_map.mp hp
    obtain ⟨⟨i', hi⟩, hs0⟩ := hall r hr
    have hst := indexerIndex_state idxr r.data (keyOf r) i' hi
    subst hst
    exact ⟨hi, hs0⟩
  obtain ⟨acc', hrun, hinv⟩ := groupByAux_inv idxr s
    (f.rows.map (fun r => (r, keyOf r))) [] [] hall' (groupInv_nil s)
  have hfst : (f.rows.map (fun r => (r, keyOf r))).map Prod.fst =
      f.rows := by
    rw [List.map_map]
    exact List.map_id f.rows
  have hP : (f.rows.map (fun r => (r, keyOf r))).map
      (fun p => (p.1.data, p.2)) =
      f.rows.map (fun r0 => (r0.data, keyOf r0)) := by
    rw [List.map_map]
    rfl
  rw [hfst] at hrun
  rw [List.nil_append, hP] at hinv
  obtain ⟨hsh, hsort, hlook, hmem⟩ := hinv
  have hsnd : (f.rows.map (fun r0 => (r0.data, keyOf r0))).map
      Prod.snd = f.rows.map keyOf := by
    rw [List.map_map]
    rfl
  refine ⟨acc', ?_, sorted_keys_nodup hsh hsort, ?_, ?_⟩
  · simp only [groupByGo, hrun]
  · intro r hr
    obtain ⟨_, hs0⟩ := hall r hr
    have hl := hlook (keyOf r) hs0
    rw [hsnd] at hl
    rw [hl, if_pos (List.mem_map.mpr ⟨r, hr, rfl⟩)]
  · intro y hy
    obtain ⟨h1, h2⟩ := hmem y hy
    rw [hsnd] at h1
    exact ⟨h1, h2⟩

theorem C9_groupby_amended_witness :
    ∃ rows',
      groupByGo ⟨[⟨.int 0, [("i", .int 0)]⟩], .column ["i"] []⟩
          (.column ["i"] []) =
        some (⟨rows', .groupIdx (.column ["i"] [])⟩, none) ∧
      (rows'.map GoRow.index).Nodup ∧
      (∀ r ∈ [(⟨.int 0, [("i", .int 0)]⟩ : GoRow)],
        getList (.int 0) rows' = some (some [(groupColumn,
          .group (groupFor (.int 0) [([("i", .int 0)], .int 0)]))])) ∧
      (∀ y ∈ rows', y.index ∈ [GoIndex.int 0] ∧
        y.data = [(groupColumn, .group (groupFor y.index
          [([("i", .int 0)], .int 0)]))]) :=
  C9_groupby_amended ⟨[⟨.int 0, [("i", .int 0)]⟩], .column ["i"] []⟩
    (.column ["i"] []) .int (fun _ => .int 0)
    (by
      intro r hr
      rcases List.mem_cons.mp hr with rfl | hr2
      · constructor
        · refine ⟨.column ["i"] [], ?_⟩
          simp [indexerIndex, colIndexLoop, dataGet, typesGet,
            newIndexGo, toIndexVals, toIndexVal]
        · rw [shapeOf]
      · exact absurd hr2 (List.not_mem_nil r))

/-- Phase 1 of `Frame.Joined` projects each left row's columns into
one-sided join results (src/unnamed/part_001 lines 263-267). -/
def projectLeftData (d : Data) : Data :=
  d.map (fun cv => (cv.1, .joinResult (some cv.2) none))

/-- Phase 2 of `Frame.Joined` merges a right row into the looked-up
projected row (src/unnamed/part_001 lines 289-300): an existing column
must hold a `JoinResult`, whose right slot is set; a missing column
gets a fresh right-only `JoinResult`. -/
def mergeRight (proj : Data) : Data → Except GoErr Data
  | [] => .ok proj
  | (c, v) :: rest =>
    match dataGet proj c with
    | none => mergeRight (dataSet proj c (.joinResult none (some v))) rest
    | some (.joinResult l _) =>
      mergeRight (dataSet proj c (.joinResult l (some v))) rest
    | some _ => .error (.notJoinResult c)

/-- The first phase's loop of `Frame.Joined` (src/unnamed/part_001
lines 262-273): put the projection of each left row, aborting on a
`Put` error. -/
def joinedPhase1 (fr : GoFrame) : List Data → Option (Except GoErr GoFrame)
  | [] => some (.ok fr)
  | d :: rest =>
    match frPut fr (projectLeftData d) with
    | none => none
    | some (.error e) => some (.error e)
    | some (.ok (_, fr')) => joinedPhase1 fr' rest

/-- The second phase's loop of `Frame.Joined` (src/unnamed/part_001
lines 279-305): look the right row's key up in the result frame,
default to an empty row, merge the right columns in and put the result
back. A `Get` or merge error aborts; a `Put` error is dropped (the code
re-checks the stale `err` variable). -/
def joinedPhase2 (fr : GoFrame) : List Data → Option (Except GoErr GoFrame)
  | [] => some (.ok fr)
  | d :: rest =>
    match frGet fr d with
    | none => none
    | some (.error e) => some (.error e)
    | some (.ok (res, fr₁)) =>
      match mergeRight (match res with | some p => p | none => []) d with
      | .error e => some (.error e)
      | .ok merged =>
        match frPut fr₁ merged with
        | none => none
        | some (.error _) => joinedPhase2 fr₁ rest
        | some (.ok (_, fr₂)) => joinedPhase2 fr₂ rest

/-- `Frame.Joined` (src/unnamed/part_001 lines 254-309): a fresh frame
indexed by `JoinResultIndexer` over the left frame's indexer, filled by
the two phases over the frames' full ranges. -/
def joinedGo (f frame : GoFrame) : Option (Except GoErr GoFrame) :=
  match getRangeGo f ⟨none, none⟩ with
  | none => none
  | some (.error e) => some (.error e)
  | some (.ok (allL, _)) =>
    match joinedPhase1 ⟨[], .joinRes f.indexer⟩ allL with
    | none => none
    | some (.error e) => some (.error e)
    | some (.ok fr1) =>
      match getRangeGo frame ⟨none, none⟩ with
      | none => none
      | some (.error e) => some (.error e)
      | some (.ok (allR, _)) => joinedPhase2 fr1 allR

/-- The left/right pair the spec prescribes for a result column: the
matching side's value, an absent slot on a side missing the column,
and no column where both sides lack it. -/
def pairAt (dL dR : Data) (c : String) : Option GoValue :=
  match dataGet dL c, dataGet dR c with
  | none, none => none
  | some lv, none => some (.joinResult (some lv) none)
  | none, some rv => some (.joinResult none (some rv))
  | some lv, some rv => some (.joinResult (some lv) (some rv))

/-- The data `Frame.Joined` stores for a key, as a function of the
sides' rows for that key: left-only rows stay projected, right rows are
merged into the projected (or empty) row. -/
def joinRowData : Option Data → Option Data → Option Data
  | none, none => none
  | some dL, none => some (projectLeftData dL)
  | none, some dR =>
    match mergeRight [] dR with
    | .ok m => some m
    | .error _ => none
  | some dL, some dR =>
    match mergeRight (projectLeftData dL) dR with
    | .ok m => some m
    | .error _ => none

/-- The side's row carrying a given key. -/
def sideLookup (q : GoIndex) (ds : List Data) (key : Data → GoIndex) :
    Option Data :=
  ds.find? (fun d => decide (key d = q))

theorem getRangeGo_all (f : GoFrame) :
    getRangeGo f ⟨none, none⟩ =
      some (.ok (f.rows.map (·.data), f.indexer)) := by
  rw [getRangeGo, forRangeGo, selectRows]
  simp only [runActions_data]

theorem dataGet_dataSet : ∀ (d : Data) (c : String) (v : GoValue)
    (c' : String), dataGet (dataSet d c v) c' =
      if c' = c then some v else dataGet d c'
  | [], c, v, c' => by
      simp only [dataSet, dataGet]
      by_cases h : c' = c
      · subst h
        simp
      · rw [if_neg (fun hh : c = c' => h hh.symm), if_neg h]
  | (c0, v0) :: rest, c, v, c' => by
      rw [dataSet]
      by_cases h0 : c0 = c
      · rw [if_pos h0]
        simp only [dataGet]
        by_cases h : c' = c
        · subst h
          simp
        · rw [if_neg (fun hh : c = c' => h hh.symm), if_neg h,
            if_neg (fun hh : c0 = c' => h (hh.symm.trans h0))]
      · rw [if_neg h0]
        simp only [dataGet]
        by_cases h1 : c0 = c'
        · rw [if_pos h1, if_neg (fun hh : c' = c => h0 (h1.trans hh)),
            if_pos h1]
        · rw [if_neg h1, dataGet_dataSet rest c v c', if_neg h1]

theorem dataGet_map : ∀ (d : Data) (g : GoValue → GoValue) (c : String),
    dataGet (d.map (fun cv => (cv.1, g cv.2))) c = (dataGet d c).map g
  | [], g, c => by rw [List.map_nil, dataGet]; rfl
  | (c0, v0) :: rest, g, c => by
      rw [List.map_cons, dataGet, dataGet]
      by_cases h : c0 = c
      · rw [if_pos h, if_pos h]
        rfl
      · rw [if_neg h, if_neg h, dataGet_map rest g c]

theorem dataGet_projectLeft (d : Data) (c : String) :
    dataGet (projectLeftData d) c =
      (dataGet d c).map (fun v => .joinResult (some v) none) := by
  rw [projectLeftData]
  exact dataGet_map d (fun v => .joinResult (some v) none) c

theorem dataGet_none_of_not_mem : ∀ (d : Data) (c : String),
    c ∉ d.map Prod.fst → dataGet d c = none
  | [], c, _ => by rw [dataGet]
  | (c0, v0) :: rest, c, h => by
      rw [dataGet, if_neg (fun hh : c0 = c => h (by
        rw [List.map_cons]
        exact hh ▸ List.mem_cons_self c0 _))]
      exact dataGet_none_of_not_mem rest c (fun hh => h (by
        rw [List.map_cons]
        exact List.mem_cons_of_mem _ hh))

/-- The left slot stored for a column of a projected row. -/
def leftSlot (proj : Data) (c : String) : Option GoValue :=
  match dataGet proj c with
  | some (.joinResult l _) => l
  | _ => none

theorem projectLeft_jr (d : Data) (c : String) (v : GoValue)
    (h : dataGet (projectLeftData d) c = some v) :
    ∃ l r, v = .joinResult l r := by
  rw [dataGet_projectLeft] at h
  cases hd : dataGet d c with
  | none => rw [hd] at h; cases h
  | some w =>
    rw [hd, Option.map_some'] at h
    injection h with h
    exact ⟨some w, none, h.symm⟩

theorem leftSlot_projectLeft (d : Data) (c : String) :
    leftSlot (projectLeftData d) c = dataGet d c := by
  rw [leftSlot, dataGet_projectLeft]
  cases dataGet d c with
  | none => rfl
  | some w => rfl

/-- Merging a right row into an all-join-result row always succeeds,
keeps every stored value a join result, leaves columns the right row
lacks unchanged, and gives each right column a pair of the stored left
slot and the right value. -/
theorem mergeRight_get : ∀ (dR proj : Data),
    (∀ c v, dataGet proj c = some v → ∃ l r, v = .joinResult l r) →
    (dR.map Prod.fst).Nodup →
    ∃ m, mergeRight proj dR = .ok m ∧
      (∀ c v, dataGet m c = some v → ∃ l r, v = .joinResult l r) ∧
      (∀ c, dataGet dR c = none → dataGet m c = dataGet proj c) ∧
      (∀ c rv, dataGet dR c = some rv →
        dataGet m c = some (.joinResult (leftSlot proj c) (some rv)))
  | [], proj, hjr, _ => ⟨proj, by rw [mergeRight], hjr,
      fun c _ => rfl, fun c rv h => by rw [dataGet] at h; cases h⟩
  | (c, v) :: rest, proj, hjr, hnd => by
      rw [List.map_cons, List.nodup_cons] at hnd
      obtain ⟨hcnotin, hndrest⟩ := hnd
      cases hpc : dataGet proj c with
      | none =>
        have hjr' : ∀ c₀ v₀, dataGet (dataSet proj c
            (.joinResult none (some v))) c₀ = some v₀ →
            ∃ l r, v₀ = .joinResult l r := by
          intro c₀ v₀ h₀
          rw [dataGet_dataSet] at h₀
          by_cases hc : c₀ = c
          · rw [if_pos hc] at h₀
            injection h₀ with h₀
            exact ⟨none, some v, h₀.symm⟩
          · rw [if_neg hc] at h₀
            exact hjr c₀ v₀ h₀
        obtain ⟨m, hm, hmjr, hm3, hm4⟩ :=
          mergeRight_get rest (dataSet proj c (.joinResult none (some v)))
            hjr' hndrest
        refine ⟨m, ?_, hmjr, ?_, ?_⟩
        · rw [mergeRight]
          simp only [hpc]
          exact hm
        · intro c₀ h₀
          rw [dataGet] at h₀
          by_cases hc : c = c₀
          · rw [if_pos hc] at h₀
            cases h₀
          · rw [if_neg hc] at h₀
            rw [hm3 c₀ h₀, dataGet_dataSet,
              if_neg (fun hh : c₀ = c => hc hh.symm)]
        · intro c₀ rv h₀
          rw [dataGet] at h₀
          by_cases hc : c = c₀
          · rw [if_pos hc] at h₀
            injection h₀ with h₀
            subst hc
            have hrest : dataGet rest c = none :=
              dataGet_none_of_not_mem rest c hcnotin
            rw [hm3 c hrest, dataGet_dataSet, if_pos rfl, leftSlot, hpc,
              ← h₀]
          · rw [if_neg hc] at h₀
            rw [hm4 c₀ rv h₀]
            have hls : leftSlot (dataSet proj c
                (.joinResult none (some v))) c₀ = leftSlot proj c₀ := by
              rw [leftSlot, leftSlot, dataGet_dataSet,
                if_neg (fun hh : c₀ = c => hc hh.symm)]
            rw [hls]
      | some pv =>
        obtain ⟨l, r0, rfl⟩ := hjr c pv hpc
        have hjr' : ∀ c₀ v₀, dataGet (dataSet proj c
            (.joinResult l (some v))) c₀ = some v₀ →
            ∃ l1 r1, v₀ = .joinResult l1 r1 := by
          intro c₀ v₀ h₀
          rw [dataGet_dataSet] at h₀
          by_cases hc : c₀ = c
          · rw [if_pos hc] at h₀
            injection h₀ with h₀
            exact ⟨l, some v, h₀.symm⟩
          · rw [if_neg hc] at h₀
            exact hjr c₀ v₀ h₀
        obtain ⟨m, hm, hmjr, hm3, hm4⟩ :=
          mergeRight_get rest (dataSet proj c (.joinResult l (some v)))
            hjr' hndrest
        refine ⟨m, ?_, hmjr, ?_, ?_⟩
        · rw [mergeRight]
          simp only [hpc]
          exact hm
        · intro c₀ h₀
          rw [dataGet] at h₀
          by_cases hc : c = c₀
          · rw [if_pos hc] at h₀
            cases h₀
          · rw [if_neg hc] at h₀
            rw [hm3 c₀ h₀, dataGet_dataSet,
              if_neg (fun hh : c₀ = c => hc hh.symm)]
        · intro c₀ rv h₀
          rw [dataGet] at h₀
          by_cases hc : c = c₀
          · rw [if_pos hc] at h₀
            injection h₀ with h₀
            subst hc
            have hrest : dataGet rest c = none :=
              dataGet_none_of_not_mem rest c hcnotin
            rw [hm3 c hrest, dataGet_dataSet, if_pos rfl, leftSlot, hpc,
              ← h₀]
          · rw [if_neg hc] at h₀
            rw [hm4 c₀ rv h₀]
            have hls : leftSlot (dataSet proj c
                (.joinResult l (some v))) c₀ = leftSlot proj c₀ := by
              rw [leftSlot, leftSlot, dataGet_dataSet,
                if_neg (fun hh : c₀ = c => hc hh.symm)]
            rw [hls]

theorem findAppend_of_none {α : Type} : ∀ (P : List α) (pr : α → Bool)
    (l2 : List α), P.find? pr = none → (P ++ l2).find? pr = l2.find? pr
  | [], pr, l2, _ => rfl
  | x :: xs, pr, l2, h => by
      cases hx : pr x with
      | true =>
        rw [List.find?_cons_of_pos _ hx] at h
        cases h
      | false =>
        rw [List.find?_cons_of_neg _ (by simp [hx])] at h
        rw [List.cons_append, List.find?_cons_of_neg _ (by simp [hx])]
        exact findAppend_of_none xs pr l2 h

theorem findAppend_of_some {α : Type} : ∀ (P : List α) (pr : α → Bool)
    (l2 : List α) (x : α),
    P.find? pr = some x → (P ++ l2).find? pr = some x
  | [], pr, l2, x, h => by rw [List.find?_nil] at h; cases h
  | y :: ys, pr, l2, x, h => by
      cases hy : pr y with
      | true =>
        rw [List.find?_cons_of_pos _ hy] at h
        rw [List.cons_append, List.find?_cons_of_pos _ hy]
        exact h
      | false =>
        rw [List.find?_cons_of_neg _ (by simp [hy])] at h
        rw [List.cons_append, List.find?_cons_of_neg _ (by simp [hy])]
        exact findAppend_of_some ys pr l2 x h

/-- The invariant of `Joined`'s first phase: the result tree is sorted
and uniformly shaped and holds, for each key, exactly the projection of
the processed left row carrying that key. -/
def joinInv1 (s : Shape) (P : List (Data × GoIndex))
    (acc : List GoRow) : Prop :=
  rowsShaped s acc ∧ sortedRows acc ∧
  (∀ q, shapeOf q = some s →
    getList q acc = some ((P.find? (fun p => decide (p.2 = q))).map
      (fun p => projectLeftData p.1)))

theorem joinInv1_nil (s : Shape) : joinInv1 s [] [] :=
  ⟨fun r hr => absurd hr (List.not_mem_nil r), List.Pairwise.nil,
    fun q _ => by rw [getList, List.find?_nil]; rfl⟩

/-- Folding the first phase of `Joined` over left rows with
distinct keys of one common shape preserves the invariant. -/
theorem joinedPhase1_inv (idxr : GoIndexer) (s : Shape)
    (kL : Data → GoIndex) :
    ∀ (src : List Data) (P : List (Data × GoIndex)) (acc : List GoRow),
    (∀ d ∈ src, indexerIndex idxr (projectLeftData d) = .ok (kL d, idxr) ∧
      shapeOf (kL d) = some s) →
    (∀ d ∈ src, kL d ∉ P.map Prod.snd) →
    (src.map kL).Nodup →
    joinInv1 s P acc →
    ∃ acc', joinedPhase1 ⟨acc, idxr⟩ src = some (.ok ⟨acc', idxr⟩) ∧
      joinInv1 s (P ++ src.map (fun d => (d, kL d))) acc'
  | [], P, acc, _, _, _, hinv => ⟨acc, by rw [joinedPhase1], by
      rw [List.map_nil, List.append_nil]; exact hinv⟩
  | d :: rest, P, acc, hall, hfresh, hnd, hinv => by
      obtain ⟨hidx, hk⟩ := hall d (List.mem_cons_self _ _)
      obtain ⟨hsh, hsort, hlook⟩ := hinv
      obtain ⟨⟨prev, acc₁⟩, hpl⟩ := putList_total acc (kL d)
        (projectLeftData d) s hsh hk
      have hfreshd := hfresh d (List.mem_cons_self _ _)
      rw [List.map_cons, List.nodup_cons] at hnd
      obtain ⟨hdnotin, hndrest⟩ := hnd
      have hinv1 : joinInv1 s (P ++ [(d, kL d)]) acc₁ := by
        obtain ⟨hsh', hsort'⟩ := putList_sorted acc (kL d) _ s hsh
          hsort hk prev acc₁ hpl
        refine ⟨hsh', hsort', ?_⟩
        intro q hq
        rw [getList_putList acc (kL d) q _ s hsh hk hq prev acc₁ hpl]
        by_cases hqk : q = kL d
        · subst hqk
          rw [if_pos rfl]
          have hnone : P.find? (fun p => decide (p.2 = kL d)) = none :=
            List.find?_eq_none.mpr (fun p hp hdec =>
              hfreshd (List.mem_map.mpr ⟨p, hp, of_decide_eq_true hdec⟩))
          rw [findAppend_of_none _ _ _ hnone,
            List.find?_cons_of_pos _ (by simp)]
          rfl
        · rw [if_neg hqk, hlook q hq]
          cases hfq : P.find? (fun p => decide (p.2 = q)) with
          | some x => rw [findAppend_of_some _ _ _ x hfq]
          | none =>
            rw [findAppend_of_none _ _ _ hfq,
              List.find?_cons_of_neg _ (by
                simp only [decide_eq_true_eq]
                exact fun hh => hqk hh.symm),
              List.find?_nil]
      obtain ⟨acc', hrun, hinv2⟩ := joinedPhase1_inv idxr s kL rest
        (P ++ [(d, kL d)]) acc₁
        (fun d' hd' => hall d' (List.mem_cons_of_mem _ hd'))
        (fun d' hd' => by
          simp only [List.map_append, List.mem_append]
          rintro (h | h)
          · exact hfresh d' (List.mem_cons_of_mem _ hd') h
          · simp at h
            exact hdnotin (h ▸ List.mem_map.mpr ⟨d', hd', rfl⟩))
        hndrest hinv1
      refine ⟨acc', ?_, ?_⟩
      · rw [joinedPhase1]
        simp only [frPut, hidx, hpl]
        exact hrun
      · have heq : P ++ (d :: rest).map (fun d0 => (d0, kL d0)) =
            (P ++ [(d, kL d)]) ++ rest.map (fun d0 => (d0, kL d0)) := by
          simp
        rw [heq]
        exact hinv2

/-- Merging any right row into an all-join-result row never hits the
not-a-join-result error, and keeps every stored value a join result. -/
theorem mergeRight_ok : ∀ (dR proj : Data),
    (∀ c v, dataGet proj c = some v → ∃ l r, v = .joinResult l r) →
    ∃ m, mergeRight proj dR = .ok m ∧
      (∀ c v, dataGet m c = some v → ∃ l r, v = .joinResult l r)
  | [], proj, hjr => ⟨proj, by rw [mergeRight], hjr⟩
  | (c, v) :: rest, proj, hjr => by
      cases hpc : dataGet proj c with
      | none =>
        have hjr' : ∀ c₀ v₀, dataGet (dataSet proj c
            (.joinResult none (some v))) c₀ = some v₀ →
            ∃ l r, v₀ = .joinResult l r := by
          intro c₀ v₀ h₀
          rw [dataGet_dataSet] at h₀
          by_cases hc : c₀ = c
          · rw [if_pos hc] at h₀
            injection h₀ with h₀
            exact ⟨none, some v, h₀.symm⟩
          · rw [if_neg hc] at h₀
            exact hjr c₀ v₀ h₀
        obtain ⟨m, hm, hmjr⟩ := mergeRight_ok rest
          (dataSet proj c (.joinResult none (some v))) hjr'
        refine ⟨m, ?_, hmjr⟩
        rw [mergeRight]
        simp only [hpc]
        exact hm
      | some pv =>
        obtain ⟨l, r0, rfl⟩ := hjr c pv hpc
        have hjr' : ∀ c₀ v₀, dataGet (dataSet proj c
            (.joinResult l (some v))) c₀ = some v₀ →
            ∃ l1 r1, v₀ = .joinResult l1 r1 := by
          intro c₀ v₀ h₀
          rw [dataGet_dataSet] at h₀
          by_cases hc : c₀ = c
          · rw [if_pos hc] at h₀
            injection h₀ with h₀
            exact ⟨l, some v, h₀.symm⟩
          · rw [if_neg hc] at h₀
            exact hjr c₀ v₀ h₀
        obtain ⟨m, hm, hmjr⟩ := mergeRight_ok rest
          (dataSet proj c (.joinResult l (some v))) hjr'
        refine ⟨m, ?_, hmjr⟩
        rw [mergeRight]
        simp only [hpc]
        exact hm

/-- The invariant of `Joined`'s second phase: for each key the tree
holds the projected left row if only the left side has the key, the
merge of the processed right row into the projected (or empty) left row
if the right side has it, and nothing otherwise. -/
def joinInv2 (s : Shape) (Pl R : List (Data × GoIndex))
    (acc : List GoRow) : Prop :=
  rowsShaped s acc ∧ sortedRows acc ∧
  (∀ q, shapeOf q = some s →
    match Pl.find? (fun p => decide (p.2 = q)),
        R.find? (fun p => decide (p.2 = q)) with
    | none, none => getList q acc = some none
    | some pl, none => getList q acc = some (some (projectLeftData pl.1))
    | some pl, some pr => ∃ m,
        mergeRight (projectLeftData pl.1) pr.1 = .ok m ∧
        getList q acc = some (some m)
    | none, some pr => ∃ m, mergeRight [] pr.1 = .ok m ∧
        getList q acc = some (some m))

theorem joinInv2_of_inv1 {s : Shape} {Pl : List (Data × GoIndex)}
    {acc : List GoRow} (h : joinInv1 s Pl acc) : joinInv2 s Pl [] acc := by
  obtain ⟨hsh, hsort, hlook⟩ := h
  refine ⟨hsh, hsort, ?_⟩
  intro q hq
  rw [List.find?_nil]
  have hl := hlook q hq
  cases hf : Pl.find? (fun p => decide (p.2 = q)) with
  | none =>
    rw [hf] at hl
    exact hl
  | some pl =>
    rw [hf] at hl
    exact hl

/-- One step of `Joined`'s second phase keeps the invariant: inserting
the merged row for a key freshly taken from the right side updates that
key's entry and no other. -/
theorem joinInv2_step (s : Shape) (Pl R : List (Data × GoIndex))
    (acc : List GoRow) (k : GoIndex) (d : Data) (mnew : Data)
    (hinv : joinInv2 s Pl R acc) (hk : shapeOf k = some s)
    (hfR : R.find? (fun p => decide (p.2 = k)) = none)
    (prev : Option Data) (acc₁ : List GoRow)
    (hpl : putList ⟨k, mnew⟩ acc = some (prev, acc₁))
    (harm : match Pl.find? (fun p => decide (p.2 = k)) with
      | none => mergeRight [] d = .ok mnew
      | some pl => mergeRight (projectLeftData pl.1) d = .ok mnew) :
    joinInv2 s Pl (R ++ [(d, k)]) acc₁ := by
  obtain ⟨hsh, hsort, hlook⟩ := hinv
  obtain ⟨hsh', hsort'⟩ := putList_sorted acc k mnew s hsh hsort hk
    prev acc₁ hpl
  refine ⟨hsh', hsort', ?_⟩
  intro q hq
  have hgl := getList_putList acc k q mnew s hsh hk hq prev acc₁ hpl
  by_cases hqk : q = k
  · subst hqk
    rw [findAppend_of_none _ _ _ hfR, List.find?_cons_of_pos _ (by simp)]
    cases hfL : Pl.find? (fun p => decide (p.2 = q)) with
    | none =>
      simp only [hfL] at harm ⊢
      exact ⟨mnew, harm, by rw [hgl, if_pos rfl]⟩
    | some pl =>
      simp only [hfL] at harm ⊢
      exact ⟨mnew, harm, by rw [hgl, if_pos rfl]⟩
  · have hfind : (R ++ [(d, k)]).find? (fun p => decide (p.2 = q)) =
        R.find? (fun p => decide (p.2 = q)) := by
      cases hfq : R.find? (fun p => decide (p.2 = q)) with
      | some x => exact findAppend_of_some _ _ _ x hfq
      | none =>
        rw [findAppend_of_none _ _ _ hfq, List.find?_cons_of_neg _ (by
          simp only [decide_eq_true_eq]
          exact fun hh => hqk hh.symm), List.find?_nil]
    rw [hfind, show getList q acc₁ = getList q acc by
      rw [hgl, if_neg hqk]]
    exact hlook q hq

/-- Folding `Joined`'s second phase over right rows with distinct keys
of one common shape succeeds without error and preserves the
invariant. -/
theorem joinedPhase2_inv (idxr : GoIndexer) (s : Shape)
    (kR : Data → GoIndex) (Pl : List (Data × GoIndex)) :
    ∀ (src : List Data) (R : List (Data × GoIndex)) (acc : List GoRow),
    (∀ d ∈ src, indexerIndex idxr d = .ok (kR d, idxr) ∧
      shapeOf (kR d) = some s) →
    (∀ d ∈ src, ∀ m, mergeRight [] d = .ok m →
      indexerIndex idxr m = .ok (kR d, idxr)) →
    (∀ d ∈ src, ∀ pl, Pl.find? (fun p => decide (p.2 = kR d)) = some pl →
      ∀ m, mergeRight (projectLeftData pl.1) d = .ok m →
      indexerIndex idxr m = .ok (kR d, idxr)) →
    (∀ d ∈ src, kR d ∉ R.map Prod.snd) →
    (src.map kR).Nodup →
    joinInv2 s Pl R acc →
    ∃ acc', joinedPhase2 ⟨acc, idxr⟩ src = some (.ok ⟨acc', idxr⟩) ∧
      joinInv2 s Pl (R ++ src.map (fun d => (d, kR d))) acc'
  | [], R, acc, _, _, _, _, _, hinv => ⟨acc, by rw [joinedPhase2], by
      rw [List.map_nil, List.append_nil]; exact hinv⟩
  | d :: rest, R, acc, hall, hput0, hput1, hfresh, hnd, hinv => by
      obtain ⟨hidx, hk⟩ := hall d (List.mem_cons_self _ _)
      have hfreshd := hfresh d (List.mem_cons_self _ _)
      rw [List.map_cons, List.nodup_cons] at hnd
      obtain ⟨hdnotin, hndrest⟩ := hnd
      have hfR : R.find? (fun p => decide (p.2 = kR d)) = none :=
        List.find?_eq_none.mpr (fun p hp hdec =>
          hfreshd (List.mem_map.mpr ⟨p, hp, of_decide_eq_true hdec⟩))
      obtain ⟨hsh, hsort, hlook⟩ := hinv
      have h3 := hlook (kR d) hk
      cases hfL : Pl.find? (fun p => decide (p.2 = kR d)) with
      | none =>
        simp only [hfL, hfR] at h3
        obtain ⟨m, hmok, hmjr⟩ := mergeRight_ok d []
          (fun c v h => by rw [dataGet] at h; cases h)
        have hputk := hput0 d (List.mem_cons_self _ _) m hmok
        obtain ⟨⟨prev, acc₁⟩, hpl⟩ := putList_total acc (kR d) m s hsh hk
        have hinv1 : joinInv2 s Pl (R ++ [(d, kR d)]) acc₁ :=
          joinInv2_step s Pl R acc (kR d) d m ⟨hsh, hsort, hlook⟩ hk hfR
            prev acc₁ hpl (by simp only [hfL]; exact hmok)
        obtain ⟨acc', hrun, hinv2⟩ := joinedPhase2_inv idxr s kR Pl rest
          (R ++ [(d, kR d)]) acc₁
          (fun d' hd' => hall d' (List.mem_cons_of_mem _ hd'))
          (fun d' hd' => hput0 d' (List.mem_cons_of_mem _ hd'))
          (fun d' hd' => hput1 d' (List.mem_cons_of_mem _ hd'))
          (fun d' hd' => by
            simp only [List.map_append, List.mem_append]
            rintro (h | h)
            · exact hfresh d' (List.mem_cons_of_mem _ hd') h
            · simp at h
              exact hdnotin (h ▸ List.mem_map.mpr ⟨d', hd', rfl⟩))
          hndrest hinv1
        refine ⟨acc', ?_, ?_⟩
        · rw [joinedPhase2]
          simp only [frGet, hidx, h3, hmok, frPut, hputk, hpl]
          exact hrun
        · have heq : R ++ (d :: rest).map (fun d0 => (d0, kR d0)) =
              (R ++ [(d, kR d)]) ++ rest.map (fun d0 => (d0, kR d0)) := by
            simp
          rw [heq]
          exact hinv2
      | some pl =>
        simp only [hfL, hfR] at h3
        obtain ⟨m, hmok, hmjr⟩ := mergeRight_ok d (projectLeftData pl.1)
          (fun c v h => projectLeft_jr pl.1 c v h)
        have hputk := hput1 d (List.mem_cons_self _ _) pl hfL m hmok
        obtain ⟨⟨prev, acc₁⟩, hpl⟩ := putList_total acc (kR d) m s hsh hk
        have hinv1 : joinInv2 s Pl (R ++ [(d, kR d)]) acc₁ :=
          joinInv2_step s Pl R acc (kR d) d m ⟨hsh, hsort, hlook⟩ hk hfR
            prev acc₁ hpl (by simp only [hfL]; exact hmok)
        obtain ⟨acc', hrun, hinv2⟩ := joinedPhase2_inv idxr s kR Pl rest
          (R ++ [(d, kR d)]) acc₁
          (fun d' hd' => hall d' (List.mem_cons_of_mem _ hd'))
          (fun d' hd' => hput0 d' (List.mem_cons_of_mem _ hd'))
          (fun d' hd' => hput1 d' (List.mem_cons_of_mem _ hd'))
          (fun d' hd' => by
            simp only [List.map_append, List.mem_append]
            rintro (h | h)
            · exact hfresh d' (List.mem_cons_of_mem _ hd') h
            · simp at h
              exact hdnotin (h ▸ List.mem_map.mpr ⟨d', hd', rfl⟩))
          hndrest hinv1
        refine ⟨acc', ?_, ?_⟩
        · rw [joinedPhase2]
          simp only [frGet, hidx, h3, hmok, frPut, hputk, hpl]
          exact hrun
        · have heq : R ++ (d :: rest).map (fun d0 => (d0, kR d0)) =
              (R ++ [(d, kR d)]) ++ rest.map (fun d0 => (d0, kR d0)) := by
            simp
          rw [heq]
          exact hinv2

theorem find?_map_pair : ∀ (ds : List Data) (key : Data → GoIndex)
    (q : GoIndex),
    (ds.map (fun d => (d, key d))).find? (fun p => decide (p.2 = q)) =
      (ds.find? (fun d => decide (key d = q))).map (fun d => (d, key d))
  | [], key, q => rfl
  | d :: rest, key, q => by
      rw [List.map_cons]
      simp only [List.find?_cons]
      cases hd : decide (key d = q) with
      | true =>
        simp only [hd]
        rfl
      | false =>
        simp only [hd]
        exact find?_map_pair rest key q

/-- C4 counterexample: joining a two-row left frame whose zero-column
indexer keys every row to `NoKey` with an empty right frame succeeds,
yet produces TWO result rows for the single key in the union of the
sides' keys, because `NoKey` compares less than itself and `Put` never
replaces at it. -/
theorem C4_counterexample :
    joinedGo ⟨[⟨.null, [("a", .int 0)]⟩, ⟨.null, [("a", .int 1)]⟩],
        .column [] []⟩ ⟨[], .column [] []⟩ =
      some (.ok ⟨[⟨.null, [("a", .joinResult (some (.int 1)) none)]⟩,
                  ⟨.null, [("a", .joinResult (some (.int 0)) none)]⟩],
        .joinRes (.column [] [])⟩) ∧
    (∀ y ∈ [(⟨.null, [("a", .joinResult (some (.int 1)) none)]⟩ : GoRow),
            ⟨.null, [("a", .joinResult (some (.int 0)) none)]⟩],
      y.index = .null) := by
  constructor
  · simp [joinedGo, getRangeGo_all, joinedPhase1, joinedPhase2, frPut,
      indexerIndex, jrProject, jrProjectVal, colIndexLoop, newIndexGo,
      toIndexVals, putList, lessGo_null, projectLeftData]
  · intro y hy
    rcases List.mem_cons.mp hy with rfl | hy2
    · rfl
    · rcases List.mem_cons.mp hy2 with rfl | hy3
      · rfl
      · exact absurd hy3 (List.not_mem_nil y)

/-- C4 (amended): if the left rows' projections and the right rows all
index successfully to keys of one common non-null shape, the sides'
keys are each duplicate-free, and merged rows keep the right row's key,
then `Joined` succeeds and returns exactly one row per key in the union
of the sides' keys: looking any key up yields the projected left row,
the right-only merge, or the two-sided merge according to which sides
carry it; and every merge gives each column a left/right pair whose
slot is absent exactly on the side missing the column. -/
theorem C4_joined_amended (f frame : GoFrame) (s : Shape)
    (kL kR : Data → GoIndex)
    (hL : ∀ d ∈ f.rows.map (fun r => r.data),
      (∃ i', indexerIndex (.joinRes f.indexer) (projectLeftData d) =
        .ok (kL d, i')) ∧ shapeOf (kL d) = some s)
    (hLn : ((f.rows.map (fun r => r.data)).map kL).Nodup)
    (hR : ∀ d ∈ frame.rows.map (fun r => r.data),
      (∃ i', indexerIndex (.joinRes f.indexer) d = .ok (kR d, i')) ∧
      shapeOf (kR d) = some s)
    (hRn : ((frame.rows.map (fun r => r.data)).map kR).Nodup)
    (hM0 : ∀ d ∈ frame.rows.map (fun r => r.data), ∀ m,
      mergeRight [] d = .ok m →
      ∃ i', indexerIndex (.joinRes f.indexer) m = .ok (kR d, i'))
    (hM1 : ∀ d ∈ frame.rows.map (fun r => r.data),
      ∀ dL ∈ f.rows.map (fun r => r.data), kL dL = kR d →
      ∀ m, mergeRight (projectLeftData dL) d = .ok m →
      ∃ i', indexerIndex (.joinRes f.indexer) m = .ok (kR d, i')) :
    ∃ rows',
      joinedGo f frame = some (.ok ⟨rows', .joinRes f.indexer⟩) ∧
      (rows'.map GoRow.index).Nodup ∧
      (∀ q, shapeOf q = some s → getList q rows' =
        some (joinRowData
          (sideLookup q (f.rows.map (fun r => r.data)) kL)
          (sideLookup q (frame.rows.map (fun r => r.data)) kR))) ∧
      (∀ dL dR m, (dR.map Prod.fst).Nodup →
        mergeRight (projectLeftData dL) dR = .ok m →
        ∀ c, dataGet m c = pairAt dL dR c) ∧
      (∀ dL c, dataGet (projectLeftData dL) c = pairAt dL [] c) ∧
      (∀ dR m, (dR.map Prod.fst).Nodup → mergeRight [] dR = .ok m →
        ∀ c, dataGet m c = pairAt [] dR c) := by
  have hL' : ∀ d ∈ f.rows.map (fun r => r.data),
      indexerIndex (.joinRes f.indexer) (projectLeftData d) =
        .ok (kL d, .joinRes f.indexer) ∧ shapeOf (kL d) = some s := by
    intro d hd
    obtain ⟨⟨i', hi⟩, hs0⟩ := hL d hd
    have hst := indexerIndex_state _ _ _ _ hi
    subst hst
    exact ⟨hi, hs0⟩
  have hR' : ∀ d ∈ frame.rows.map (fun r => r.data),
      indexerIndex (.joinRes f.indexer) d =
        .ok (kR d, .joinRes f.indexer) ∧ shapeOf (kR d) = some s := by
    intro d hd
    obtain ⟨⟨i', hi⟩, hs0⟩ := hR d hd
    have hst := indexerIndex_state _ _ _ _ hi
    subst hst
    exact ⟨hi, hs0⟩
  have hput0' : ∀ d ∈ frame.rows.map (fun r => r.data), ∀ m,
      mergeRight [] d = .ok m →
      indexerIndex (.joinRes f.indexer) m =
        .ok (kR d, .joinRes f.indexer) := by
    intro d hd m hm
    obtain ⟨i', hi⟩ := hM0 d hd m hm
    have hst := indexerIndex_state _ _ _ _ hi
    subst hst
    exact hi
  have hput1' : ∀ d ∈ frame.rows.map (fun r => r.data), ∀ pl,
      ((f.rows.map (fun r => r.data)).map
        (fun d0 => (d0, kL d0))).find?
          (fun p => decide (p.2 = kR d)) = some pl →
      ∀ m, mergeRight (projectLeftData pl.1) d = .ok m →
      indexerIndex (.joinRes f.indexer) m =
        .ok (kR d, .joinRes f.indexer) := by
    intro d hd pl hfind m hm
    have hplmem := List.mem_of_find?_eq_some hfind
    obtain ⟨dL, hdL, hpleq⟩ := List.mem_map.mp hplmem
    have hb := List.find?_some hfind
    simp only [decide_eq_true_eq] at hb
    subst hpleq
    obtain ⟨i', hi⟩ := hM1 d hd dL hdL hb m hm
    have hst := indexerIndex_state _ _ _ _ hi
    subst hst
    exact hi
  obtain ⟨acc1, hrun1, hinv1⟩ := joinedPhase1_inv (.joinRes f.indexer) s
    kL (f.rows.map (fun r => r.data)) [] [] hL'
    (fun d hd h => absurd h (List.not_mem_nil _)) hLn (joinInv1_nil s)
  rw [List.nil_append] at hinv1
  obtain ⟨acc2, hrun2, hinv2⟩ := joinedPhase2_inv (.joinRes f.indexer) s
    kR ((f.rows.map (fun r => r.data)).map (fun d => (d, kL d)))
    (frame.rows.map (fun r => r.data)) [] acc1 hR' hput0' hput1'
    (fun d hd h => absurd h (List.not_mem_nil _)) hRn
    (joinInv2_of_inv1 hinv1)
  rw [List.nil_append] at hinv2
  obtain ⟨hsh2, hsort2, hlook2⟩ := hinv2
  refine ⟨acc2, ?_, sorted_keys_nodup hsh2 hsort2, ?_, ?_, ?_, ?_⟩
  · rw [joinedGo]
    simp only [getRangeGo_all, hrun1, hrun2]
  · intro q hq
    have h := hlook2 q hq
    rw [find?_map_pair, find?_map_pair] at h
    simp only [sideLookup]
    cases hfl : (f.rows.map (fun r => r.data)).find?
        (fun d => decide (kL d = q)) with
    | none =>
      cases hfr : (frame.rows.map (fun r => r.data)).find?
          (fun d => decide (kR d = q)) with
      | none =>
        simp only [hfl, hfr, Option.map_none'] at h ⊢
        rw [h]
        rfl
      | some dR =>
        simp only [hfl, hfr, Option.map_none', Option.map_some'] at h ⊢
        obtain ⟨m, hm, hg⟩ := h
        rw [hg]
        simp only [joinRowData, hm]
    | some dL =>
      cases hfr : (frame.rows.map (fun r => r.data)).find?
          (fun d => decide (kR d = q)) with
      | none =>
        simp only [hfl, hfr, Option.map_none', Option.map_some'] at h ⊢
        rw [h]
        rfl
      | some dR =>
        simp only [hfl, hfr, Option.map_some'] at h ⊢
        obtain ⟨m, hm, hg⟩ := h
        rw [hg]
        simp only [joinRowData, hm]
  · intro dL dR m hnd hm c
    obtain ⟨m₀, hm₀, _, h3, h4⟩ := mergeRight_get dR (projectLeftData dL)
      (fun c0 v h => projectLeft_jr dL c0 v h) hnd
    rw [hm₀] at hm
    injection hm with hm
    subst hm
    cases hd : dataGet dR c with
    | none =>
      rw [h3 c hd, dataGet_projectLeft, pairAt, hd]
      cases hdl : dataGet dL c with
      | none => rfl
      | some lv => rfl
    | some rv =>
      rw [h4 c rv hd, leftSlot_projectLeft, pairAt, hd]
      cases hdl : dataGet dL c with
      | none => rfl
      | some lv => rfl
  · intro dL c
    rw [dataGet_projectLeft, pairAt, dataGet]
    cases hdl : dataGet dL c with
    | none => rfl
    | some lv => rfl
  · intro dR m hnd hm c
    obtain ⟨m₀, hm₀, _, h3, h4⟩ := mergeRight_get dR []
      (fun c0 v h => by rw [dataGet] at h; cases h) hnd
    rw [hm₀] at hm
    injection hm with hm
    subst hm
    cases hd : dataGet dR c with
    | none =>
      rw [h3 c hd, pairAt, hd, dataGet]
    | some rv =>
      rw [h4 c rv hd, pairAt, hd,
        show leftSlot [] c = none from by rw [leftSlot, dataGet],
        dataGet]

theorem C4_joined_amended_witness :
    ∃ rows',
      joinedGo ⟨[⟨.int 0, [("i", .int 0)]⟩], .column ["i"] []⟩
          ⟨[⟨.int 0, [("i", .int 0), ("j", .int 5)]⟩], .column ["i"] []⟩ =
        some (.ok ⟨rows', .joinRes (.column ["i"] [])⟩) ∧
      (rows'.map GoRow.index).Nodup ∧
      (∀ q, shapeOf q = some .int → getList q rows' =
        some (joinRowData
          (sideLookup q [[("i", .int 0)]] (fun _ => .int 0))
          (sideLookup q [[("i", .int 0), ("j", .int 5)]]
            (fun _ => .int 0)))) ∧
      (∀ dL dR m, (dR.map Prod.fst).Nodup →
        mergeRight (projectLeftData dL) dR = .ok m →
        ∀ c, dataGet m c = pairAt dL dR c) ∧
      (∀ dL c, dataGet (projectLeftData dL) c = pairAt dL [] c) ∧
      (∀ dR m, (dR.map Prod.fst).Nodup → mergeRight [] dR = .ok m →
        ∀ c, dataGet m c = pairAt [] dR c) := by
  exact C4_joined_amended
    ⟨[⟨.int 0, [("i", .int 0)]⟩], .column ["i"] []⟩
    ⟨[⟨.int 0, [("i", .int 0), ("j", .int 5)]⟩], .column ["i"] []⟩
    .int (fun _ => .int 0) (fun _ => .int 0)
    (by
      intro d hd
      simp only [List.map_cons, List.map_nil] at hd
      rcases List.mem_cons.mp hd with rfl | hd2
      · refine ⟨⟨.joinRes (.column ["i"] []), ?_⟩, by rw [shapeOf]⟩
        simp [indexerIndex, jrProject, jrProjectVal, projectLeftData,
          colIndexLoop, dataGet, typesGet, newIndexGo, toIndexVals,
          toIndexVal]
      · exact absurd hd2 (List.not_mem_nil d))
    (by simp)
    (by
      intro d hd
      simp only [List.map_cons, List.map_nil] at hd
      rcases List.mem_cons.mp hd with rfl | hd2
      · refine ⟨⟨.joinRes (.column ["i"] []), ?_⟩, by rw [shapeOf]⟩
        simp [indexerIndex, jrProject, jrProjectVal, colIndexLoop,
          dataGet, typesGet, newIndexGo, toIndexVals, toIndexVal]
      · exact absurd hd2 (List.not_mem_nil d))
    (by simp)
    (by
      intro d hd m hm
      simp only [List.map_cons, List.map_nil] at hd
      rcases List.mem_cons.mp hd with rfl | hd2
      · have hcomp : mergeRight []
            [("i", GoValue.int 0), ("j", GoValue.int 5)] =
            .ok [("i", .joinResult none (some (.int 0))),
                 ("j", .joinResult none (some (.int 5)))] := by
          simp [mergeRight, dataGet, dataSet]
        rw [hcomp] at hm
        injection hm with hm
        subst hm
        refine ⟨.joinRes (.column ["i"] []), ?_⟩
        simp [indexerIndex, jrProject, jrProjectVal, colIndexLoop,
          dataGet, typesGet, newIndexGo, toIndexVals, toIndexVal]
      · exact absurd hd2 (List.not_mem_nil d))
    (by
      intro d hd dL hdL hk m hm
      simp only [List.map_cons, List.map_nil] at hd hdL
      rcases List.mem_cons.mp hd with rfl | hd2
      · rcases List.mem_cons.mp hdL with rfl | hdL2
        · have hcomp : mergeRight (projectLeftData [("i", GoValue.int 0)])
              [("i", GoValue.int 0), ("j", GoValue.int 5)] =
              .ok [("i", .joinResult (some (.int 0)) (some (.int 0))),
                   ("j", .joinResult none (some (.int 5)))] := by
            simp [mergeRight, projectLeftData, dataGet, dataSet]
          rw [hcomp] at hm
          injection hm with hm
          subst hm
          refine ⟨.joinRes (.column ["i"] []), ?_⟩
          simp [indexerIndex, jrProject, jrProjectVal, colIndexLoop,
            dataGet, typesGet, newIndexGo, toIndexVals, toIndexVal]
        · exact absurd hdL2 (List.not_mem_nil dL)
      · exact absurd hd2 (List.not_mem_nil d))
